import Mathlib

/-!
Verification of the static usage-liveness analyzer (`DeadCodeAnalyzer` in
`tests/dead_code_analyzer.py`, together with `DeadCodeFinder.get_py_files` in
`tests/Доработать тесты/dead_code_finder.py`).

Shallow embedding conventions:
* Filesystem paths are lists of components (`Path`), read from the root;
  `os.path.dirname` is `List.dropLast`.
* The source key of an import edge is either a resolved project-file path or an
  opaque module name (`Source`); in Python both live in one string key space,
  where an absolute path string never coincides with a bare module name.
* Python dicts are association lists (`AList`) preserving insertion order;
  Python sets of strings are duplicate-free-by-insertion lists (`sinsert`).
* The two AST walks are represented by per-file lists of the node shapes the
  analyzer dispatches on (`PNode` for pass 1, `UNode` for pass 2), in walk
  order, with the parent-link information the code consults (enclosing class)
  recorded on the node.
* The `while` loop of `_resolve_relative_import` is not structurally
  terminating, so it is given fuel; `none` means the loop has not finished
  within the given fuel.
-/

set_option synthInstance.maxSize 512

namespace DeadCode

/-- A filesystem path as its list of components below the root. -/
abbrev Path := List String

/-- A source position `(lineno, col_offset)`. -/
abbrev Pos := Nat × Nat

/-- Model of `os.path.dirname` on a component-list path: drop the last component. -/
def dirname (p : Path) : Path := p.dropLast

/-- Association list keyed by `κ`, modelling a Python dict (insertion order kept). -/
abbrev AList (κ α : Type) := List (κ × α)

/-- Dict lookup `d.get(k)` / `d[k]`. -/
def alookup {κ α : Type} [DecidableEq κ] : AList κ α → κ → Option α
  | [], _ => none
  | (k, v) :: rest, key => if k = key then some v else alookup rest key

/-- Dict assignment `d[k] = v`: replace in place if present, else append. -/
def aset {κ α : Type} [DecidableEq κ] : AList κ α → κ → α → AList κ α
  | [], key, v => [(key, v)]
  | (k, w) :: rest, key, v =>
      if k = key then (k, v) :: rest else (k, w) :: aset rest key v

/-- The keys of an association list. -/
def akeys {κ α : Type} (d : AList κ α) : List κ := d.map Prod.fst

/-- Update `d[k] = f(d.get(k, dflt))`: update the entry at `k`, starting from `dflt`
when the key is absent. -/
def aupd {κ α : Type} [DecidableEq κ] (d : AList κ α) (key : κ) (dflt : α)
    (f : α → α) : AList κ α :=
  aset d key (f ((alookup d key).getD dflt))

/-- Python `set.add` on a duplicate-free list: append if not yet present. -/
def sinsert (s : List String) (x : String) : List String :=
  if x ∈ s then s else s ++ [x]

theorem alookup_aset_self {κ α : Type} [DecidableEq κ]
    (d : AList κ α) (k : κ) (v : α) : alookup (aset d k v) k = some v := by
  induction d with
  | nil => simp [aset, alookup]
  | cons hd tl ih =>
    obtain ⟨k', v'⟩ := hd
    by_cases h : k' = k <;> simp [aset, alookup, h, ih]

theorem alookup_aset_ne {κ α : Type} [DecidableEq κ]
    (d : AList κ α) (k k' : κ) (v : α) (h : k ≠ k') :
    alookup (aset d k v) k' = alookup d k' := by
  induction d with
  | nil => simp [aset, alookup, h]
  | cons hd tl ih =>
    obtain ⟨k₀, v₀⟩ := hd
    by_cases h0 : k₀ = k
    · subst h0; simp [aset, alookup, h]
    · simp [aset, alookup, h0, ih]

theorem mem_sinsert_self (s : List String) (x : String) : x ∈ sinsert s x := by
  by_cases h : x ∈ s <;> simp [sinsert, h]

theorem mem_sinsert_of_mem (s : List String) (x y : String) (h : y ∈ s) :
    y ∈ sinsert s x := by
  by_cases hx : x ∈ s <;> simp [sinsert, hx, h]

/-- The resolved source of an import edge: a project-file path (from a
successful relative-import resolution) or an opaque module name string.  In
the Python original both are plain strings in the same dict; an absolute file
path never equals a bare module name, which the two constructors capture. -/
inductive Source where
  | path (p : Path)
  | module (m : String)
deriving DecidableEq, Repr

/-! ### `_resolve_relative_import` -/

/-- Append `".py"` to the last component, modelling
`os.path.join(current_dir, *module.split('.')) + ".py"` where the `+ ".py"`
lands on the final path component. -/
def appendPy : List String → List String
  | [] => []
  | [a] => [a ++ ".py"]
  | a :: rest => a :: appendPy rest

/-- Python `s.endswith(suffix)`, computed on the character lists (extensionally the
same as `String.endsWith`, but structurally recursive so that concrete
instances evaluate inside proofs). -/
def strEndsWith (s suffix : String) : Bool :=
  suffix.data.isSuffixOf s.data

/-- Python `s.split(sep)` on the character list, structurally recursive. -/
def splitOnChar (c : Char) : List Char → List (List Char)
  | [] => [[]]
  | x :: xs =>
    let r := splitOnChar c xs
    if x = c then [] :: r
    else
      match r with
      | [] => [[x]]
      | h :: t => (x :: h) :: t

/-- Model of `module.split('.')` (Python `str.split` with a one-character separator). -/
def splitDots (s : String) : List String :=
  (splitOnChar '.' s.data).map (fun l => String.mk l)

/-- Test `module_path.endswith("__init__.py")` on a component-list path: the final
component ends with `"__init__.py"`. -/
def endsWithInitPy (p : Path) : Bool :=
  match p.getLast? with
  | some c => strEndsWith c "__init__.py"
  | none => false

/-- The `while not os.path.exists(module_path)` loop of
`_resolve_relative_import`, with fuel.  `fs` is the set of existing files.
`none` means the loop has not terminated within `fuel` iterations. -/
def resolveLoop (fs : List Path) (module : String) : Nat → Path → Option Source
  | 0, _ => none
  | fuel + 1, module_path =>
    if module_path ∈ fs then some (.path module_path)
    else if endsWithInitPy module_path then
      resolveLoop fs module fuel (dirname module_path ++ ["__init__.py"])
    else
      let parent_dir := dirname module_path
      if parent_dir = dirname parent_dir then some (.module module)
      else resolveLoop fs module fuel (dirname parent_dir ++ ["__init__.py"])

/-- Iterate `d = os.path.dirname(d)` as in `for _ in range(level - 1)`. -/
def iterDirname : Nat → Path → Path
  | 0, d => d
  | n + 1, d => iterDirname n (dirname d)

/-- Model of `DeadCodeAnalyzer._resolve_relative_import`.  The `project_dir` parameter
is accepted and, as in the source, never consulted. -/
def resolveRelativeImport (fs : List Path) (fuel : Nat) (filepath : Path)
    (module : String) (level : Nat) (_project_dir : Path) : Option Source :=
  if level = 0 then some (.module module)
  else
    let current_dir := iterDirname (level - 1) (dirname filepath)
    let module_path :=
      if module = "" then current_dir ++ ["__init__.py"]
      else current_dir ++ appendPy (splitDots module)
    resolveLoop fs module fuel module_path

/-! ### Analyzer state -/

/-- The accumulator state of `DeadCodeAnalyzer.__init__`: the eight per-file
maps.  Python sets are duplicate-free lists in insertion order. -/
structure AnalyzerState where
  file_exports : AList Path (List String)
  file_imports : AList Path (AList Source (List String))
  defined_functions : AList Path (AList String Pos)
  used_functions : AList Path (List String)
  defined_classes : AList Path (AList String Pos)
  used_classes : AList Path (List String)
  defined_methods : AList Path (AList String (AList String Pos))
  used_methods : AList Path (AList String (List String))
deriving DecidableEq, Repr

/-- The freshly constructed analyzer: every map empty. -/
def initState : AnalyzerState := ⟨[], [], [], [], [], [], [], []⟩

/-- The set `self.special_methods` after the two construction steps (the dunder set
plus the Qt event/signal/common names added by `update`). -/
def special_methods : List String :=
  ["__init__", "__new__", "__del__", "__str__", "__repr__",
   "__eq__", "__lt__", "__gt__", "__hash__", "__call__",
   "event", "mousePressEvent", "mouseMoveEvent",
   "mouseReleaseEvent", "keyPressEvent", "paintEvent",
   "clicked", "activated", "textChanged",
   "initUI", "setupUi", "createConnections"]

/-- The `override_methods` literal inside `_is_method_used`. -/
def override_methods : List String :=
  ["run", "main", "execute", "start", "init", "initialize",
   "setup", "update", "render", "draw", "process", "handle",
   "create", "build", "load", "save"]

/-! ### Pass 1: `_analyze_exports_and_imports` -/

/-- The node shapes pass 1 dispatches on, one per node of `ast.walk(tree)` in
walk order.  `parentClass` records whether `node.parent` is a `ClassDef` and
its name; `hasDecorators` records `bool(node.decorator_list)`; an import alias
is `(alias.name, alias.asname)`.  All other nodes are `other`. -/
inductive PNode where
  | funcDef (name : String) (parentClass : Option String) (hasDecorators : Bool) (pos : Pos)
  | classDef (name : String) (pos : Pos)
  | imp (aliases : List (String × Option String))
  | importFrom (module : Option String) (level : Nat) (aliases : List (String × Option String))
  | other
deriving DecidableEq, Repr

/-- One `alias` of a plain `import` statement (step 11 of the walk). -/
def processImportAlias (fp : Path) (st : AnalyzerState)
    (al : String × Option String) : AnalyzerState :=
  let source_module := al.1
  let imported_name := al.2.getD al.1
  { st with file_imports := (aupd st.file_imports fp []
      (fun m => aupd m (.module source_module) [] (fun s => sinsert s imported_name))) }

/-- One `alias` of a `from ... import ...` statement with resolved source
`src` (steps 12–14), including the wildcard special case: when the alias is
`"*"` and the resolved source is a file whose export set is already recorded,
all its currently known exports are copied in. -/
def processImportFromAlias (fp : Path) (src : Source) (st : AnalyzerState)
    (al : String × Option String) : AnalyzerState :=
  let imported_name := al.2.getD al.1
  let st := { st with file_imports := (aupd st.file_imports fp []
      (fun m => aupd m src [] (fun s => sinsert s imported_name))) }
  if al.1 = "*" then
    match src with
    | .path p =>
      match alookup st.file_exports p with
      | some exports =>
        { st with file_imports := (aupd st.file_imports fp []
            (fun m => aupd m src [] (fun s => exports.foldl sinsert s))) }
      | none => st
    | .module _ => st
  else st

/-- The per-node body of the pass-1 `for node in ast.walk(tree)` loop.  When
the relative-import resolver runs out of fuel (`none`), the state is returned
unchanged; at that point the Python original does not terminate at all, so no
finite behaviour is modelled there. -/
def processNode1 (fs : List Path) (fuel : Nat) (project_dir : Path) (fp : Path)
    (st : AnalyzerState) : PNode → AnalyzerState
  | .funcDef name parentClass hasDecorators pos =>
    match parentClass with
    | none =>
      { st with
        file_exports := aupd st.file_exports fp [] (fun s => sinsert s name),
        defined_functions := (aupd st.defined_functions fp []
          (fun m => aset m name pos)) }
    | some class_name =>
      let st :=
        if hasDecorators then
          { st with used_methods := (aupd st.used_methods fp []
              (fun d => aupd d class_name [] (fun s => sinsert s name))) }
        else st
      { st with defined_methods := (aupd st.defined_methods fp []
          (fun d => aupd d class_name [] (fun m => aset m name pos))) }
  | .classDef name pos =>
    { st with
      file_exports := aupd st.file_exports fp [] (fun s => sinsert s name),
      defined_classes := aupd st.defined_classes fp [] (fun m => aset m name pos),
      defined_methods := aupd st.defined_methods fp [] (fun d => aset d name []) }
  | .imp aliases => aliases.foldl (processImportAlias fp) st
  | .importFrom module level aliases =>
    match resolveRelativeImport fs fuel fp (module.getD "") level project_dir with
    | some src => aliases.foldl (processImportFromAlias fp src) st
    | none => st
  | .other => st

/-- Model of `DeadCodeAnalyzer._analyze_exports_and_imports` for one file: initialize
the eight per-file entries, then walk the nodes. -/
def analyzeExportsAndImports (fs : List Path) (fuel : Nat) (project_dir : Path)
    (fp : Path) (nodes : List PNode) (st : AnalyzerState) : AnalyzerState :=
  let st :=
    { st with
      file_exports := aset st.file_exports fp [],
      file_imports := aset st.file_imports fp [],
      defined_functions := aset st.defined_functions fp [],
      used_functions := aset st.used_functions fp [],
      defined_classes := aset st.defined_classes fp [],
      used_classes := aset st.used_classes fp [],
      defined_methods := aset st.defined_methods fp [],
      used_methods := aset st.used_methods fp [] }
  nodes.foldl (processNode1 fs fuel project_dir fp) st

/-! ### Pass 2: `_analyze_usage` -/

/-- The object part of an attribute callee `obj.m`: a simple `ast.Name` or
anything else. -/
inductive AttrValue where
  | name (id : String)
  | other
deriving DecidableEq, Repr

/-- The callee of an `ast.Call`: a bare `ast.Name`, an `ast.Attribute`
(value plus attribute string), or any other expression. -/
inductive CallTarget where
  | name (id : String)
  | attr (value : AttrValue) (attr : String)
  | other
deriving DecidableEq, Repr

/-- A call argument, as far as `_register_qt_connection` inspects it: a
simple `ast.Name` or anything else. -/
inductive Arg where
  | name (id : String)
  | other
deriving DecidableEq, Repr

/-- One recorded usage: an entry added to `used_functions`, `used_methods`
or `used_classes` of the current file. -/
inductive UsageFact where
  | functionUse (name : String)
  | methodUse (cls : String) (method : String)
  | classUse (name : String)
deriving DecidableEq, Repr

/-- The node shapes pass 2 dispatches on, in walk order.  `enclosingClass` is
the name of the nearest `ClassDef` ancestor found by walking `parent` links
(`none` when there is none); `nameLoad` is an `ast.Name` whose `ctx` is
`ast.Load`. -/
inductive UNode where
  | call (func : CallTarget) (args : List Arg) (enclosingClass : Option String)
  | nameLoad (id : String)
  | other
deriving DecidableEq, Repr

/-- The usage facts the pass-2 `ast.Call` branch records for one call node
(steps 4–12 plus `_register_qt_connection`), given the names of the classes
defined in the current file. -/
def classifyCall (definedClassNames : List String) (func : CallTarget)
    (args : List Arg) (encl : Option String) : List UsageFact :=
  match func with
  | .attr v a =>
    if a = "connect" then
      -- `_register_qt_connection`: first argument a simple name, nearest
      -- enclosing class found by the parent walk; otherwise nothing.
      match args, encl with
      | .name slot :: _, some c => [.methodUse c slot]
      | _, _ => []
    else
      match v with
      | .name obj =>
        if obj = "self" then
          match encl with
          | some c => [.methodUse c a]
          | none => []
        else if obj ∈ definedClassNames then [.methodUse obj a]
        else [.functionUse (obj ++ "." ++ a)]
      | .other => []
  | .name f => [.functionUse f]
  | .other => []

/-- Record one usage fact into the current file's `used_*` maps. -/
def recordFact (fp : Path) (st : AnalyzerState) : UsageFact → AnalyzerState
  | .functionUse n =>
    { st with used_functions := aupd st.used_functions fp [] (fun s => sinsert s n) }
  | .methodUse c m =>
    { st with used_methods := (aupd st.used_methods fp []
        (fun d => aupd d c [] (fun s => sinsert s m))) }
  | .classUse n =>
    { st with used_classes := aupd st.used_classes fp [] (fun s => sinsert s n) }

/-- The per-node body of the pass-2 walk loop. -/
def processUsageNode (fp : Path) (st : AnalyzerState) : UNode → AnalyzerState
  | .call func args encl =>
    (classifyCall (akeys ((alookup st.defined_classes fp).getD [])) func args
        encl).foldl (recordFact fp) st
  | .nameLoad id =>
    if id ∈ akeys ((alookup st.defined_classes fp).getD []) then
      recordFact fp st (.classUse id)
    else st
  | .other => st

/-- Model of `DeadCodeAnalyzer._analyze_usage` for one file. -/
def analyzeUsage (fp : Path) (nodes : List UNode) (st : AnalyzerState) :
    AnalyzerState :=
  nodes.foldl (processUsageNode fp) st

/-- One project file: its path and its two walk views (pass 1 and pass 2 are
separate re-parses of the same source in the original). -/
structure PyFile where
  path : Path
  nodes1 : List PNode
  nodes2 : List UNode
deriving DecidableEq, Repr

/-- Model of `DeadCodeAnalyzer.analyze_project`: pass 1 over every file, then pass 2
over every file, starting from the analyzer's current state. -/
def analyzeProject (fs : List Path) (fuel : Nat) (project_dir : Path)
    (files : List PyFile) (st : AnalyzerState) : AnalyzerState :=
  let st1 := files.foldl
    (fun s f => analyzeExportsAndImports fs fuel project_dir f.path f.nodes1 s) st
  files.foldl (fun s f => analyzeUsage f.path f.nodes2 s) st1

/-! ### Liveness report: `get_unused_code_report` -/

/-- Model of `DeadCodeAnalyzer._is_name_used_in_other_files`: some other file's import
edges pull `name` from a source equal to this declaration's owning file. -/
def isNameUsedInOtherFiles (file_imports : AList Path (AList Source (List String)))
    (filepath : Path) (name : String) : Bool :=
  file_imports.any (fun fi =>
    decide (fi.1 ≠ filepath) &&
      fi.2.any (fun si => decide (si.1 = Source.path filepath) && decide (name ∈ si.2)))

/-- The guarded local-usage test of `_is_method_used` (step 2):
`filepath in used_methods and class_name in used_methods[filepath] and
method_name in used_methods[filepath][class_name]`. -/
def memberOfUsedMethods (used_methods : AList Path (AList String (List String)))
    (filepath : Path) (class_name method_name : String) : Bool :=
  match alookup used_methods filepath with
  | some d =>
    match alookup d class_name with
    | some s => decide (method_name ∈ s)
    | none => false
  | none => false

/-- Model of `DeadCodeAnalyzer._is_method_used`. -/
def isMethodUsed (st : AnalyzerState) (filepath : Path)
    (class_name method_name : String) : Bool :=
  decide (method_name ∈ special_methods) ||
  decide (method_name ∈ override_methods) ||
  memberOfUsedMethods st.used_methods filepath class_name method_name ||
  isNameUsedInOtherFiles st.file_imports filepath
    (class_name ++ "." ++ method_name)

/-- The report structure returned by `get_unused_code_report`. -/
structure Report where
  unused_functions : AList Path (List (String × Pos))
  unused_methods : AList Path (AList String (List (String × Pos)))
  unused_classes : AList Path (List (String × Pos))
deriving DecidableEq, Repr

/-- The `unused_functions` section.  The body indexes
`self.used_functions[filepath]` without a guard, so a missing key is a
`KeyError`, modelled as `none`. -/
def unusedFunctionsSection (st : AnalyzerState) :
    List (Path × AList String Pos) → Option (AList Path (List (String × Pos)))
  | [] => some []
  | (fp, functions) :: rest => do
    let used ← alookup st.used_functions fp
    let unused := functions.filter (fun fn =>
      !decide (fn.1 ∈ used) && !isNameUsedInOtherFiles st.file_imports fp fn.1)
    let tail ← unusedFunctionsSection st rest
    some (if unused.isEmpty then tail else (fp, unused) :: tail)

/-- The inner per-class loop of the `unused_methods` section. -/
def unusedMethodsOfFile (st : AnalyzerState) (fp : Path) :
    AList String (AList String Pos) → AList String (List (String × Pos))
  | [] => []
  | cm :: rest =>
    let unused := cm.2.filter (fun mn => !isMethodUsed st fp cm.1 mn.1)
    let tail := unusedMethodsOfFile st fp rest
    if unused.isEmpty then tail else (cm.1, unused) :: tail

/-- The `unused_methods` section (all its lookups are guarded, so it is
total). -/
def unusedMethodsSection (st : AnalyzerState) :
    List (Path × AList String (AList String Pos)) →
      AList Path (AList String (List (String × Pos)))
  | [] => []
  | (fp, classes) :: rest =>
    let unused_methods := unusedMethodsOfFile st fp classes
    let tail := unusedMethodsSection st rest
    if unused_methods.isEmpty then tail else (fp, unused_methods) :: tail

/-- The `unused_classes` section; indexes `self.used_classes[filepath]`
without a guard. -/
def unusedClassesSection (st : AnalyzerState) :
    List (Path × AList String Pos) → Option (AList Path (List (String × Pos)))
  | [] => some []
  | (fp, classes) :: rest => do
    let used ← alookup st.used_classes fp
    let unused := classes.filter (fun cn =>
      !decide (cn.1 ∈ used) && !isNameUsedInOtherFiles st.file_imports fp cn.1)
    let tail ← unusedClassesSection st rest
    some (if unused.isEmpty then tail else (fp, unused) :: tail)

/-- Model of `DeadCodeAnalyzer.get_unused_code_report`.  Here `none` models the `KeyError`
raised by the unguarded `used_functions[filepath]` / `used_classes[filepath]`
indexing when a key of `defined_functions` / `defined_classes` is missing
there. -/
def getUnusedCodeReport (st : AnalyzerState) : Option Report := do
  let uf ← unusedFunctionsSection st st.defined_functions
  let um := unusedMethodsSection st st.defined_methods
  let uc ← unusedClassesSection st st.defined_classes
  some ⟨uf, um, uc⟩

/-! ### `DeadCodeFinder.get_py_files` (the scanner with an exclusion list) -/

/-- A directory tree: directory name, subdirectories, plain file names. -/
inductive DirTree where
  | dir (name : String) (subdirs : List DirTree) (files : List String)
deriving Repr

/-- The name of the tree's root directory. -/
def DirTree.dirName : DirTree → String
  | .dir n _ _ => n

mutual

/-- Model of `DeadCodeFinder.get_py_files` as an `os.walk` from the directory `t`
located at `path`: collect the `.py` files of each visited directory, pruning
(`dirs[:] = [d for d in dirs if d not in self.exclude_dirs]`) every
subdirectory whose name is in `exclude`. -/
def getPyFiles (exclude : List String) (path : Path) (t : DirTree) : List Path :=
  match t with
  | .dir _ subdirs files =>
    (files.filter (fun f => strEndsWith f ".py")).map (fun f => path ++ [f])
      ++ getPyFilesList exclude path subdirs

/-- Walk the kept subdirectories in order. -/
def getPyFilesList (exclude : List String) (path : Path) :
    List DirTree → List Path
  | [] => []
  | d :: ds =>
    (if d.dirName ∈ exclude then [] else getPyFiles exclude (path ++ [d.dirName]) d)
      ++ getPyFilesList exclude path ds

end

mutual

/-- Modelled from the spec: every file of the tree, as the chain of
directory names strictly below the root together with the file name.  This is
the specification-side enumeration that `getPyFiles` is compared against. -/
def allFiles (t : DirTree) : List (List String × String) :=
  match t with
  | .dir _ subdirs files =>
    files.map (fun f => ([], f)) ++ allFilesList subdirs

/-- The files of a list of subtrees, each prefixed with its subtree's name. -/
def allFilesList : List DirTree → List (List String × String)
  | [] => []
  | d :: ds =>
    (allFiles d).map (fun cf => (d.dirName :: cf.1, cf.2)) ++ allFilesList ds

end

/-! ### Basic association-list and set lemmas -/

theorem alookup_aupd_self {κ α : Type} [DecidableEq κ]
    (d : AList κ α) (k : κ) (dflt : α) (f : α → α) :
    alookup (aupd d k dflt f) k = some (f ((alookup d k).getD dflt)) := by
  simp [aupd, alookup_aset_self]

theorem alookup_aupd_ne {κ α : Type} [DecidableEq κ]
    (d : AList κ α) (k k' : κ) (dflt : α) (f : α → α) (h : k ≠ k') :
    alookup (aupd d k dflt f) k' = alookup d k' := by
  simp [aupd, alookup_aset_ne _ _ _ _ h]

theorem alookup_some_mem {κ α : Type} [DecidableEq κ]
    (d : AList κ α) (k : κ) (v : α) (h : alookup d k = some v) : (k, v) ∈ d := by
  induction d with
  | nil => simp [alookup] at h
  | cons hd tl ih =>
    obtain ⟨k₀, v₀⟩ := hd
    by_cases h0 : k₀ = k
    · subst h0
      simp [alookup] at h
      simp [h]
    · simp [alookup, h0] at h
      simp [ih h]

theorem mem_foldl_sinsert_of_mem (l : List String) (s : List String) (x : String)
    (h : x ∈ s) : x ∈ l.foldl sinsert s := by
  induction l generalizing s with
  | nil => exact h
  | cons hd tl ih => exact ih _ (mem_sinsert_of_mem _ _ _ h)

theorem mem_foldl_sinsert_of_mem_list (l : List String) (s : List String)
    (x : String) (h : x ∈ l) : x ∈ l.foldl sinsert s := by
  induction l generalizing s with
  | nil => simp at h
  | cons hd tl ih =>
    simp only [List.foldl_cons]
    rcases List.mem_cons.mp h with h | h
    · subst h
      exact mem_foldl_sinsert_of_mem tl _ x (mem_sinsert_self s x)
    · exact ih _ h

/-! ### C4: the relative-import fallback loop -/

/-- Once the loop reaches a non-existing path whose last component is exactly
`"__init__.py"`, the fallback `os.path.join(os.path.dirname(module_path),
"__init__.py")` recomputes the very same path, so the loop never ends. -/
theorem resolveLoop_stuck_on_c4_input (n : Nat) :
    resolveLoop [["project", "pkg", "mod.py"]] "sub" n ["project", "__init__.py"]
      = none := by
  induction n with
  | zero => rfl
  | succ k ih =>
    have h1 : (["project", "__init__.py"] : Path) ∉
        [[("project" : String), "pkg", "mod.py"]] := by decide
    have h2 : endsWithInitPy ["project", "__init__.py"] = true := by decide
    rw [resolveLoop, if_neg h1, if_pos h2]
    have h3 : dirname ["project", "__init__.py"] ++ ["__init__.py"]
        = (["project", "__init__.py"] : Path) := by decide
    rw [h3]
    exact ih

/-- C4: the claim states that the resolver's fallback loop always terminates,
moving to the nearest ancestor's package-init file at each step until a file
is found or the filesystem root is reached.  The code instead rejoins
`dirname(module_path)` with `"__init__.py"`, which is the same path again, so
on the concrete input `from .sub import …` inside `/project/pkg/mod.py` (the
only existing file) the loop never terminates: for every amount of fuel the
embedded loop is still unfinished.  This contradicts the function's own
docstring and inline comment ("climb up the directories", "return the
original module name if the file is not found"). -/
theorem resolve_relative_import_diverges (fuel : Nat) :
    resolveRelativeImport [["project", "pkg", "mod.py"]] fuel
      ["project", "pkg", "mod.py"] "sub" 1 ["project"] = none := by
  match fuel with
  | 0 => rfl
  | k + 1 =>
    have h0 : resolveRelativeImport [["project", "pkg", "mod.py"]] (k + 1)
        ["project", "pkg", "mod.py"] "sub" 1 ["project"]
        = resolveLoop [["project", "pkg", "mod.py"]] "sub" (k + 1)
            ["project", "pkg", "sub.py"] := rfl
    rw [h0]
    have h1 : (["project", "pkg", "sub.py"] : Path) ∉
        [[("project" : String), "pkg", "mod.py"]] := by decide
    have h2 : ¬ endsWithInitPy ["project", "pkg", "sub.py"] = true := by decide
    rw [resolveLoop, if_neg h1, if_neg h2]
    have h3 : ¬ dirname ["project", "pkg", "sub.py"]
        = dirname (dirname ["project", "pkg", "sub.py"]) := by decide
    rw [if_neg h3]
    have h4 : dirname (dirname ["project", "pkg", "sub.py"]) ++ ["__init__.py"]
        = (["project", "__init__.py"] : Path) := by decide
    rw [h4]
    exact resolveLoop_stuck_on_c4_input k

/-! ### C3 and C7: classification of one call expression -/

/-- C3 (as stated, refuted): a call whose callee is an attribute of a
non-name expression — here literally `a.b.m()`, whose `func.value` is itself
an `ast.Attribute` — records zero usage facts: `classifyCall` yields the
empty list and the usage pass leaves the analyzer state unchanged, so "never
zero" fails. -/
theorem call_zero_usage_facts_counterexample :
    classifyCall [] (CallTarget.attr AttrValue.other "m") [] none = [] ∧
    processUsageNode ["proj", "m.py"] initState
      (UNode.call (CallTarget.attr AttrValue.other "m") [] none) = initState :=
  ⟨rfl, rfl⟩

/-- C3 (amended): a single call expression records at most one usage fact —
never more than one; it records none exactly in the degenerate shapes (callee
neither a bare name nor a one-level attribute on a bare name, a `connect`
call without a simple-name first argument or without an enclosing class, or a
`self.`-call outside any class). -/
theorem classifyCall_length_le_one (dc : List String) (func : CallTarget)
    (args : List Arg) (encl : Option String) :
    (classifyCall dc func args encl).length ≤ 1 := by
  cases func with
  | name f => simp [classifyCall]
  | other => simp [classifyCall]
  | attr v a =>
    by_cases hc : a = "connect"
    · subst hc
      cases args with
      | nil => simp [classifyCall]
      | cons a0 rest =>
        cases a0 with
        | name sl => cases encl with
          | none => simp [classifyCall]
          | some c => simp [classifyCall]
        | other => cases encl with
          | none => simp [classifyCall]
          | some c => simp [classifyCall]
    · cases v with
      | name obj =>
        by_cases hs : obj = "self"
        · cases encl with
          | none => simp [classifyCall, hc, hs]
          | some c => simp [classifyCall, hc, hs]
        · by_cases hd : obj ∈ dc <;> simp [classifyCall, hc, hs, hd]
      | other => simp [classifyCall, hc]

/-- Membership in a two-level used-methods map: `m ∈ um[fp][cls]`. -/
def mem2 (um : AList Path (AList String (List String))) (fp : Path)
    (cls m : String) : Prop :=
  ∃ d s, alookup um fp = some d ∧ alookup d cls = some s ∧ m ∈ s

/-- The method `m` of class `cls` is recorded as used in file `fp`. -/
def methodMarkedUsed (st : AnalyzerState) (fp : Path) (cls m : String) : Prop :=
  mem2 st.used_methods fp cls m

theorem methodMarkedUsed_recordFact (fp : Path) (st : AnalyzerState) (C t : String) :
    methodMarkedUsed (recordFact fp st (UsageFact.methodUse C t)) fp C t := by
  show ∃ d s,
    alookup (aupd st.used_methods fp [] (fun d => aupd d C [] (fun s => sinsert s t)))
        fp = some d ∧ alookup d C = some s ∧ t ∈ s
  refine ⟨_, _, alookup_aupd_self _ _ _ _, alookup_aupd_self _ _ _ _, ?_⟩
  exact mem_sinsert_self _ t

/-- C7: a call `obj.connect(target)` with a simple-name `target`, occurring
with nearest enclosing class `C`, is classified as exactly the single usage
fact `MethodUse(C, target)` — it is not additionally classified under the
bare-call, self-call, class-qualified or dotted-fallback rules — and
processing the node in pass 2 marks `target` as a used method of `C` in the
current file. -/
theorem connect_call_marks_slot_used (dc : List String) (v : AttrValue)
    (t : String) (rest : List Arg) (C : String) (fp : Path) (st : AnalyzerState) :
    classifyCall dc (CallTarget.attr v "connect") (Arg.name t :: rest) (some C)
        = [UsageFact.methodUse C t] ∧
    methodMarkedUsed
      (processUsageNode fp st
        (UNode.call (CallTarget.attr v "connect") (Arg.name t :: rest) (some C)))
      fp C t := by
  constructor
  · simp [classifyCall]
  · have hred : processUsageNode fp st
        (UNode.call (CallTarget.attr v "connect") (Arg.name t :: rest) (some C))
        = recordFact fp st (UsageFact.methodUse C t) := by
      show (classifyCall _ _ _ _).foldl (recordFact fp) st = _
      simp [classifyCall]
    rw [hred]
    exact methodMarkedUsed_recordFact fp st C t

/-! ### What membership in the report's sections implies -/

/-- A function `f` of file `fp` is listed in the report's unused-functions
section. -/
def functionListedUnused (r : Report) (fp : Path) (f : String) : Prop :=
  ∃ lst pos, alookup r.unused_functions fp = some lst ∧ (f, pos) ∈ lst

/-- A method `m` of class `cls` in file `fp` is listed in the report's
unused-methods section. -/
def methodListedUnused (r : Report) (fp : Path) (cls m : String) : Prop :=
  ∃ cm ms pos, alookup r.unused_methods fp = some cm ∧ alookup cm cls = some ms ∧
    (m, pos) ∈ ms

theorem unusedFunctionsSection_spec (st : AnalyzerState) :
    ∀ (l : List (Path × AList String Pos)) (res : AList Path (List (String × Pos))),
      unusedFunctionsSection st l = some res →
      ∀ fp lst, alookup res fp = some lst → ∀ f pos, (f, pos) ∈ lst →
        isNameUsedInOtherFiles st.file_imports fp f = false ∧
        ∀ u, alookup st.used_functions fp = some u → f ∉ u := by
  intro l
  induction l with
  | nil =>
    intro res h fp lst hl
    simp [unusedFunctionsSection] at h
    subst h
    simp [alookup] at hl
  | cons hd rest ih =>
    obtain ⟨fp₀, functions⟩ := hd
    intro res h fp lst hl f pos hm
    rw [unusedFunctionsSection] at h
    cases hu : alookup st.used_functions fp₀ with
    | none => rw [hu] at h; simp at h
    | some used =>
      rw [hu] at h
      cases ht : unusedFunctionsSection st rest with
      | none => rw [ht] at h; simp at h
      | some tail =>
        rw [ht] at h
        simp only [Option.bind_eq_bind, Option.some_bind, Option.some.injEq] at h
        by_cases he : (functions.filter (fun fn =>
            !decide (fn.1 ∈ used) &&
              !isNameUsedInOtherFiles st.file_imports fp₀ fn.1)).isEmpty
        · rw [if_pos he] at h
          subst h
          exact ih tail ht fp lst hl f pos hm
        · rw [if_neg he] at h
          subst h
          by_cases hfp : fp₀ = fp
          · subst hfp
            rw [alookup, if_pos rfl] at hl
            obtain ⟨rfl⟩ := hl
            obtain ⟨-, hpred⟩ := List.mem_filter.mp hm
            simp only [Bool.and_eq_true, Bool.not_eq_true', decide_eq_false_iff_not]
              at hpred
            refine ⟨hpred.2, ?_⟩
            intro u hu'
            rw [hu] at hu'
            obtain ⟨rfl⟩ := hu'
            exact hpred.1
          · rw [alookup, if_neg hfp] at hl
            exact ih tail ht fp lst hl f pos hm

theorem unusedClassesSection_spec (st : AnalyzerState) :
    ∀ (l : List (Path × AList String Pos)) (res : AList Path (List (String × Pos))),
      unusedClassesSection st l = some res →
      ∀ fp lst, alookup res fp = some lst → ∀ c pos, (c, pos) ∈ lst →
        isNameUsedInOtherFiles st.file_imports fp c = false ∧
        ∀ u, alookup st.used_classes fp = some u → c ∉ u := by
  intro l
  induction l with
  | nil =>
    intro res h fp lst hl
    simp [unusedClassesSection] at h
    subst h
    simp [alookup] at hl
  | cons hd rest ih =>
    obtain ⟨fp₀, classes⟩ := hd
    intro res h fp lst hl c pos hm
    rw [unusedClassesSection] at h
    cases hu : alookup st.used_classes fp₀ with
    | none => rw [hu] at h; simp at h
    | some used =>
      rw [hu] at h
      cases ht : unusedClassesSection st rest with
      | none => rw [ht] at h; simp at h
      | some tail =>
        rw [ht] at h
        simp only [Option.bind_eq_bind, Option.some_bind, Option.some.injEq] at h
        by_cases he : (classes.filter (fun cn =>
            !decide (cn.1 ∈ used) &&
              !isNameUsedInOtherFiles st.file_imports fp₀ cn.1)).isEmpty
        · rw [if_pos he] at h
          subst h
          exact ih tail ht fp lst hl c pos hm
        · rw [if_neg he] at h
          subst h
          by_cases hfp : fp₀ = fp
          · subst hfp
            rw [alookup, if_pos rfl] at hl
            obtain ⟨rfl⟩ := hl
            obtain ⟨-, hpred⟩ := List.mem_filter.mp hm
            simp only [Bool.and_eq_true, Bool.not_eq_true', decide_eq_false_iff_not]
              at hpred
            refine ⟨hpred.2, ?_⟩
            intro u hu'
            rw [hu] at hu'
            obtain ⟨rfl⟩ := hu'
            exact hpred.1
          · rw [alookup, if_neg hfp] at hl
            exact ih tail ht fp lst hl c pos hm

theorem unusedMethodsOfFile_spec (st : AnalyzerState) (fp : Path) :
    ∀ (classes : AList String (AList String Pos)) (cls : String)
      (ms : List (String × Pos)),
      alookup (unusedMethodsOfFile st fp classes) cls = some ms →
      ∀ m pos, (m, pos) ∈ ms → isMethodUsed st fp cls m = false := by
  intro classes
  induction classes with
  | nil =>
    intro cls ms h
    simp [unusedMethodsOfFile, alookup] at h
  | cons cm rest ih =>
    intro cls ms h m pos hm
    rw [unusedMethodsOfFile] at h
    by_cases he : (cm.2.filter (fun mn => !isMethodUsed st fp cm.1 mn.1)).isEmpty
    · rw [if_pos he] at h
      exact ih cls ms h m pos hm
    · rw [if_neg he] at h
      by_cases hcls : cm.1 = cls
      · rw [alookup, if_pos hcls] at h
        obtain ⟨rfl⟩ := h
        obtain ⟨-, hpred⟩ := List.mem_filter.mp hm
        rw [← hcls]
        exact Bool.not_eq_true' .. |>.mp hpred
      · rw [alookup, if_neg hcls] at h
        exact ih cls ms h m pos hm

theorem unusedMethodsSection_spec (st : AnalyzerState) :
    ∀ (l : List (Path × AList String (AList String Pos))) (fp : Path)
      (cm : AList String (List (String × Pos))),
      alookup (unusedMethodsSection st l) fp = some cm →
      ∀ cls ms, alookup cm cls = some ms →
      ∀ m pos, (m, pos) ∈ ms → isMethodUsed st fp cls m = false := by
  intro l
  induction l with
  | nil =>
    intro fp cm h
    simp [unusedMethodsSection, alookup] at h
  | cons hd rest ih =>
    obtain ⟨fp₀, classes⟩ := hd
    intro fp cm h cls ms hms m pos hm
    rw [unusedMethodsSection] at h
    by_cases he : (unusedMethodsOfFile st fp₀ classes).isEmpty
    · rw [if_pos he] at h
      exact ih fp cm h cls ms hms m pos hm
    · rw [if_neg he] at h
      by_cases hfp : fp₀ = fp
      · rw [alookup, if_pos hfp] at h
        obtain ⟨rfl⟩ := h
        subst hfp
        exact unusedMethodsOfFile_spec st fp₀ classes cls ms hms m pos hm
      · rw [alookup, if_neg hfp] at h
        exact ih fp cm h cls ms hms m pos hm

/-- Unpack a successful report computation into its three sections. -/
theorem getUnusedCodeReport_eq (st : AnalyzerState) (r : Report)
    (h : getUnusedCodeReport st = some r) :
    unusedFunctionsSection st st.defined_functions = some r.unused_functions ∧
    r.unused_methods = unusedMethodsSection st st.defined_methods ∧
    unusedClassesSection st st.defined_classes = some r.unused_classes := by
  unfold getUnusedCodeReport at h
  cases huf : unusedFunctionsSection st st.defined_functions with
  | none => rw [huf] at h; simp at h
  | some uf =>
    rw [huf] at h
    cases huc : unusedClassesSection st st.defined_classes with
    | none => rw [huc] at h; simp at h
    | some uc =>
      rw [huc] at h
      simp only [Option.bind_eq_bind, Option.some_bind, Option.some.injEq] at h
      subst h
      exact ⟨rfl, rfl, rfl⟩

/-! ### C1: the always-live allow-list -/

/-- C1 (as stated, refuted): the always-live allow-list is consulted only for
methods (`_is_method_used`); the unused-functions loop checks local usage and
cross-file imports only.  A top-level function literally named `run` — a name
on the override-prone allow-list — with no usage fact and no import anywhere
is reported among unused functions. -/
theorem allowlisted_function_reported_unused :
    "run" ∈ override_methods ∧
    getUnusedCodeReport (analyzeProject [["proj", "m.py"]] 10 ["proj"]
        [⟨["proj", "m.py"], [PNode.funcDef "run" none false (1, 0)], []⟩]
        initState)
      = some ⟨[(["proj", "m.py"], [("run", 1, 0)])], [], []⟩ :=
  ⟨by decide, by decide⟩

/-- C1 (amended): the allow-list guarantee holds for Methods only.  For every
analyzer state whose report computation succeeds, a method whose name is in
the fixed always-live allow-list (the special/dunder and framework lifecycle
set, or the generic override-prone set) is never listed among unused methods,
regardless of any usage or import evidence; an allow-listed *function* enjoys
no such guarantee. -/
theorem allowlisted_method_never_unused (st : AnalyzerState) (r : Report)
    (fp : Path) (cls m : String)
    (hm : m ∈ special_methods ∨ m ∈ override_methods)
    (hr : getUnusedCodeReport st = some r) :
    ¬ methodListedUnused r fp cls m := by
  rintro ⟨cm, ms, pos, h1, h2, h3⟩
  obtain ⟨-, hum, -⟩ := getUnusedCodeReport_eq st r hr
  rw [hum] at h1
  have hfalse :=
    unusedMethodsSection_spec st st.defined_methods fp cm h1 cls ms h2 m pos h3
  have htrue : isMethodUsed st fp cls m = true := by
    rcases hm with hm | hm <;> simp [isMethodUsed, hm]
  rw [htrue] at hfalse
  simp at hfalse

theorem allowlisted_method_never_unused_witness :
    ¬ methodListedUnused ⟨[], [], [(["proj", "k.py"], [("K", 1, 0)])]⟩
        ["proj", "k.py"] "K" "run" :=
  allowlisted_method_never_unused
    (analyzeProject [["proj", "k.py"]] 10 ["proj"]
      [⟨["proj", "k.py"],
        [PNode.classDef "K" (1, 0), PNode.funcDef "run" (some "K") false (2, 4)],
        []⟩] initState)
    _ ["proj", "k.py"] "K" "run" (Or.inr (by decide)) (by decide)

/-! ### C2: a cross-file import edge alone makes a function "used" -/

/-- C2: a function `f` declared in file `a`, when any other file `b` records
an import edge for the name `f` whose resolved source equals `a`'s path, is
never listed among unused functions: the import alone suffices, with no call
site in `a` (or anywhere) required. -/
theorem imported_function_reported_used (st : AnalyzerState) (r : Report)
    (a b : Path) (f : String) (pos : Pos) (fns : AList String Pos)
    (imps : AList Source (List String)) (names : List String)
    (hdef : alookup st.defined_functions a = some fns)
    (hfn : (f, pos) ∈ fns)
    (hb : b ≠ a)
    (himp : alookup st.file_imports b = some imps)
    (hsrc : alookup imps (Source.path a) = some names)
    (hname : f ∈ names)
    (hr : getUnusedCodeReport st = some r) :
    ¬ functionListedUnused r a f := by
  rintro ⟨lst, pos', h1, h2⟩
  obtain ⟨huf, -, -⟩ := getUnusedCodeReport_eq st r hr
  have hspec := unusedFunctionsSection_spec st st.defined_functions
    r.unused_functions huf a lst h1 f pos' h2
  have hused : isNameUsedInOtherFiles st.file_imports a f = true := by
    unfold isNameUsedInOtherFiles
    rw [List.any_eq_true]
    refine ⟨(b, imps), alookup_some_mem _ _ _ himp, ?_⟩
    simp only [Bool.and_eq_true, decide_eq_true_eq]
    refine ⟨hb, ?_⟩
    rw [List.any_eq_true]
    exact ⟨(Source.path a, names), alookup_some_mem _ _ _ hsrc, by simp [hname]⟩
  rw [hspec.1] at hused
  simp at hused

theorem imported_function_reported_used_witness :
    ¬ functionListedUnused ⟨[(["proj", "a.py"], [("lonely", 4, 0)])], [], []⟩
        ["proj", "a.py"] "helper" :=
  imported_function_reported_used
    (analyzeProject [["proj", "a.py"], ["proj", "b.py"]] 10 ["proj"]
      [⟨["proj", "a.py"],
        [PNode.funcDef "helper" none false (1, 0),
         PNode.funcDef "lonely" none false (4, 0)], []⟩,
       ⟨["proj", "b.py"],
        [PNode.importFrom (some "a") 1 [("helper", none)]], []⟩] initState)
    _ ["proj", "a.py"] ["proj", "b.py"] "helper" (1, 0)
    [("helper", (1, 0)), ("lonely", (4, 0))]
    [(Source.path ["proj", "a.py"], ["helper"])] ["helper"]
    (by decide) (by decide) (by decide) (by decide) (by decide) (by decide)
    (by decide)

/-! ### C5: wildcard-import order sensitivity -/

/-- The set of names file `fp` has imported from source `src`. -/
def importedNames (st : AnalyzerState) (fp : Path) (src : Source) : List String :=
  (alookup ((alookup st.file_imports fp).getD []) src).getD []

/-- C5: when pass 1 reaches `from X import *` (a single `"*"` alias) and the
relative import resolves to the file path `X`: if `X`'s export set is already
recorded, every currently known exported name of `X` is copied into the
importing file's import set under that source; if `X` has not yet been
processed, the statement adds only the literal `"*"` marker — zero exported
names — and no error is raised (the embedded step is total). -/
theorem wildcard_import_order_sensitive (fs : List Path) (fuel : Nat)
    (pd fp : Path) (mod : Option String) (lvl : Nat) (X : Path)
    (st : AnalyzerState)
    (hres : resolveRelativeImport fs fuel fp (mod.getD "") lvl pd
      = some (Source.path X)) :
    (∀ exports, alookup st.file_exports X = some exports →
      ∀ e ∈ exports,
        e ∈ importedNames
          (processNode1 fs fuel pd fp st (PNode.importFrom mod lvl [("*", none)]))
          fp (Source.path X)) ∧
    (alookup st.file_exports X = none →
      importedNames
          (processNode1 fs fuel pd fp st (PNode.importFrom mod lvl [("*", none)]))
          fp (Source.path X)
        = sinsert (importedNames st fp (Source.path X)) "*") := by
  have hstep : processNode1 fs fuel pd fp st (PNode.importFrom mod lvl [("*", none)])
      = processImportFromAlias fp (Source.path X) st ("*", none) := by
    rw [processNode1, hres]
    rfl
  rw [hstep]
  constructor
  · intro exports hx e he
    have hred : processImportFromAlias fp (Source.path X) st ("*", none)
        = { st with file_imports := (aupd (aupd st.file_imports fp []
                (fun m => aupd m (Source.path X) [] (fun s => sinsert s "*"))) fp []
              (fun m => aupd m (Source.path X) [] (fun s => exports.foldl sinsert s))) } := by
      rw [processImportFromAlias]
      simp [hx]
    rw [hred]
    simp only [importedNames, alookup_aupd_self, Option.getD_some]
    exact mem_foldl_sinsert_of_mem_list _ _ _ he
  · intro hx
    have hred : processImportFromAlias fp (Source.path X) st ("*", none)
        = { st with file_imports := (aupd st.file_imports fp []
              (fun m => aupd m (Source.path X) [] (fun s => sinsert s "*"))) } := by
      rw [processImportFromAlias]
      simp [hx]
    rw [hred]
    simp only [importedNames, alookup_aupd_self, Option.getD_some]

theorem wildcard_import_order_sensitive_witness :
    importedNames
        (processNode1 [["proj", "a.py"]] 10 ["proj"] ["proj", "b.py"] initState
          (PNode.importFrom (some "a") 1 [("*", none)]))
        ["proj", "b.py"] (Source.path ["proj", "a.py"])
      = sinsert
          (importedNames initState ["proj", "b.py"] (Source.path ["proj", "a.py"]))
          "*" :=
  (wildcard_import_order_sensitive [["proj", "a.py"]] 10 ["proj"] ["proj", "b.py"]
    (some "a") 1 ["proj", "a.py"] initState (by decide)).2 (by decide)

/-! ### C9: idempotence of re-analysis -/

/-- C9 (as stated, refuted): re-running the full two-pass analysis over an
unchanged file set on the same analyzer does not always reproduce the
report.  Concrete input: file `b.py` holds `from .a import *` and is walked
before `a.py`, which defines the otherwise-unused `helper`.  In the first run
the wildcard finds no recorded exports for `a.py` and `helper` is reported
unused; re-running over the accumulated state, `a.py`'s export set survives
from the first run, the wildcard now copies `helper` into `b.py`'s imports,
and `helper` disappears from the report. -/
theorem rerun_analysis_changes_report :
    getUnusedCodeReport
        (analyzeProject [["proj", "a.py"], ["proj", "b.py"]] 10 ["proj"]
          [⟨["proj", "b.py"], [PNode.importFrom (some "a") 1 [("*", none)]], []⟩,
           ⟨["proj", "a.py"], [PNode.funcDef "helper" none false (1, 0)], []⟩]
          (analyzeProject [["proj", "a.py"], ["proj", "b.py"]] 10 ["proj"]
            [⟨["proj", "b.py"], [PNode.importFrom (some "a") 1 [("*", none)]], []⟩,
             ⟨["proj", "a.py"], [PNode.funcDef "helper" none false (1, 0)], []⟩]
            initState))
      ≠ getUnusedCodeReport
          (analyzeProject [["proj", "a.py"], ["proj", "b.py"]] 10 ["proj"]
            [⟨["proj", "b.py"], [PNode.importFrom (some "a") 1 [("*", none)]], []⟩,
             ⟨["proj", "a.py"], [PNode.funcDef "helper" none false (1, 0)], []⟩]
            initState) := by decide

/-! ### C6: decorated methods are marked used in pass 1 and stay used -/

theorem alookup_aupd_of_some {κ α : Type} [DecidableEq κ]
    (d : AList κ α) (k : κ) (dflt : α) (f : α → α) (v : α)
    (h : alookup d k = some v) : alookup (aupd d k dflt f) k = some (f v) := by
  rw [alookup_aupd_self, h]
  rfl

/-- Membership `mem2` survives any `used_methods[fp'][c].add(t)` update. -/
theorem mem2_aupd_insert (um : AList Path (AList String (List String)))
    (fp' fp : Path) (c t cls m : String)
    (h : mem2 um fp cls m) :
    mem2 (aupd um fp' [] (fun d => aupd d c [] (fun s => sinsert s t))) fp cls m := by
  obtain ⟨d, s, hd, hs, hm⟩ := h
  by_cases hfp : fp' = fp
  · subst hfp
    by_cases hc : c = cls
    · subst hc
      exact ⟨aupd d c [] (fun s => sinsert s t), sinsert s t,
        alookup_aupd_of_some _ _ _ _ _ hd,
        alookup_aupd_of_some _ _ _ _ _ hs,
        mem_sinsert_of_mem _ _ _ hm⟩
    · exact ⟨aupd d c [] (fun s => sinsert s t), s,
        alookup_aupd_of_some _ _ _ _ _ hd,
        by rw [alookup_aupd_ne _ _ _ _ _ hc]; exact hs,
        hm⟩
  · exact ⟨d, s, by rw [alookup_aupd_ne _ _ _ _ _ hfp]; exact hd, hs, hm⟩

/-- Importing an alias (plain `import`) does not touch `used_methods`. -/
theorem used_methods_processImportAlias (fp : Path) (st : AnalyzerState)
    (al : String × Option String) :
    (processImportAlias fp st al).used_methods = st.used_methods := rfl

/-- Importing a `from`-alias does not touch `used_methods`. -/
theorem used_methods_processImportFromAlias (fp : Path) (src : Source)
    (st : AnalyzerState) (al : String × Option String) :
    (processImportFromAlias fp src st al).used_methods = st.used_methods := by
  rw [processImportFromAlias.eq_def]
  split
  · split
    · next p =>
      cases halo : alookup st.file_exports p
      · simp [halo]
      · simp [halo]
    · rfl
  · rfl

theorem used_methods_foldl_processImportAlias (fp : Path)
    (aliases : List (String × Option String)) :
    ∀ st : AnalyzerState,
      (aliases.foldl (processImportAlias fp) st).used_methods = st.used_methods := by
  induction aliases with
  | nil => intro st; rfl
  | cons al rest ih =>
    intro st
    rw [List.foldl_cons, ih, used_methods_processImportAlias]

theorem used_methods_foldl_processImportFromAlias (fp : Path) (src : Source)
    (aliases : List (String × Option String)) :
    ∀ st : AnalyzerState,
      (aliases.foldl (processImportFromAlias fp src) st).used_methods
        = st.used_methods := by
  induction aliases with
  | nil => intro st; rfl
  | cons al rest ih =>
    intro st
    rw [List.foldl_cons, ih, used_methods_processImportFromAlias]

/-- Any pass-1 step either leaves `used_methods` alone or adds a single
decorated method under its own file's key. -/
theorem used_methods_processNode1 (fs : List Path) (fuel : Nat) (pd fp : Path)
    (st : AnalyzerState) (n : PNode) :
    (processNode1 fs fuel pd fp st n).used_methods = st.used_methods ∨
    ∃ cn name, (processNode1 fs fuel pd fp st n).used_methods
      = aupd st.used_methods fp [] (fun d => aupd d cn [] (fun s => sinsert s name)) := by
  cases n with
  | funcDef name pc hasDec pos =>
    cases pc with
    | none => exact Or.inl rfl
    | some cn =>
      cases hasDec with
      | false => exact Or.inl rfl
      | true => exact Or.inr ⟨cn, name, rfl⟩
  | classDef name pos => exact Or.inl rfl
  | imp aliases =>
    exact Or.inl (used_methods_foldl_processImportAlias fp aliases st)
  | importFrom module level aliases =>
    rw [processNode1]
    cases resolveRelativeImport fs fuel fp (module.getD "") level pd with
    | none => exact Or.inl rfl
    | some src =>
      exact Or.inl (used_methods_foldl_processImportFromAlias fp src aliases st)
  | other => exact Or.inl rfl

/-- Membership `mem2` on `used_methods` is preserved by every pass-1 node step. -/
theorem mem2_processNode1 (fs : List Path) (fuel : Nat) (pd fp' fp : Path)
    (cls m : String) (st : AnalyzerState) (n : PNode)
    (h : mem2 st.used_methods fp cls m) :
    mem2 (processNode1 fs fuel pd fp' st n).used_methods fp cls m := by
  rcases used_methods_processNode1 fs fuel pd fp' st n with heq | ⟨cn, name, heq⟩
  · rw [heq]; exact h
  · rw [heq]; exact mem2_aupd_insert _ _ _ _ _ _ _ h

theorem mem2_foldl_processNode1 (fs : List Path) (fuel : Nat) (pd fp' fp : Path)
    (cls m : String) (nodes : List PNode) :
    ∀ st : AnalyzerState, mem2 st.used_methods fp cls m →
      mem2 ((nodes.foldl (processNode1 fs fuel pd fp') st)).used_methods fp cls m := by
  induction nodes with
  | nil => intro st h; exact h
  | cons n rest ih =>
    intro st h
    exact ih _ (mem2_processNode1 fs fuel pd fp' fp cls m st n h)

/-- A decorated-method node anywhere in a file's pass-1 walk leaves the method
recorded in `used_methods` at the end of the walk. -/
theorem mem2_fold1_marks (fs : List Path) (fuel : Nat) (pd fp : Path)
    (cls m : String) (pos : Pos) :
    ∀ (nodes : List PNode), PNode.funcDef m (some cls) true pos ∈ nodes →
      ∀ st : AnalyzerState,
        mem2 ((nodes.foldl (processNode1 fs fuel pd fp) st)).used_methods fp cls m := by
  intro nodes
  induction nodes with
  | nil => intro h; simp at h
  | cons n rest ih =>
    intro hmem st
    rw [List.foldl_cons]
    rcases List.mem_cons.mp hmem with heq | hrest
    · subst heq
      apply mem2_foldl_processNode1
      show mem2 (aupd st.used_methods fp []
        (fun d => aupd d cls [] (fun s => sinsert s m))) fp cls m
      exact ⟨_, _, alookup_aupd_self _ _ _ _, alookup_aupd_self _ _ _ _,
        mem_sinsert_self _ _⟩
    · exact ih hrest _

/-- Pass 1 of the file containing the decorated method records it. -/
theorem mem2_analyzeExportsAndImports_marks (fs : List Path) (fuel : Nat)
    (pd fp : Path) (cls m : String) (pos : Pos) (nodes : List PNode)
    (st : AnalyzerState) (hnode : PNode.funcDef m (some cls) true pos ∈ nodes) :
    mem2 (analyzeExportsAndImports fs fuel pd fp nodes st).used_methods fp cls m :=
  mem2_fold1_marks fs fuel pd fp cls m pos nodes hnode _

/-- Pass 1 of a *different* file preserves the recording. -/
theorem mem2_analyzeExportsAndImports_other (fs : List Path) (fuel : Nat)
    (pd fp' fp : Path) (hne : fp' ≠ fp) (nodes : List PNode)
    (st : AnalyzerState) (h : mem2 st.used_methods fp cls m) :
    mem2 (analyzeExportsAndImports fs fuel pd fp' nodes st).used_methods fp cls m := by
  apply mem2_foldl_processNode1
  show mem2 (aset st.used_methods fp' []) fp cls m
  obtain ⟨d, s, hd, hs, hm⟩ := h
  exact ⟨d, s, by rw [alookup_aset_ne _ _ _ _ hne]; exact hd, hs, hm⟩

/-- Pass 1 over a list of files none of which is `fp` preserves the
recording. -/
theorem mem2_pass1_files_other (fs : List Path) (fuel : Nat) (pd : Path)
    (fp : Path) (cls m : String) (files : List PyFile) :
    ∀ st : AnalyzerState, (∀ f ∈ files, f.path ≠ fp) →
      mem2 st.used_methods fp cls m →
      mem2 ((files.foldl
        (fun s f => analyzeExportsAndImports fs fuel pd f.path f.nodes1 s)
        st)).used_methods fp cls m := by
  induction files with
  | nil => intro st _ h; exact h
  | cons f rest ih =>
    intro st hne h
    rw [List.foldl_cons]
    exact ih _ (fun g hg => hne g (List.mem_cons_of_mem _ hg))
      (mem2_analyzeExportsAndImports_other fs fuel pd f.path fp
        (hne f (List.mem_cons_self _ _)) f.nodes1 st h)

/-- After pass 1 over a duplicate-free file list containing the file with the
decorated method, the method is recorded. -/
theorem mem2_pass1_marks (fs : List Path) (fuel : Nat) (pd : Path)
    (fp : Path) (cls m : String) (pos : Pos) (files : List PyFile) :
    ∀ st : AnalyzerState,
      (∃ f ∈ files, f.path = fp ∧ PNode.funcDef m (some cls) true pos ∈ f.nodes1) →
      (files.map PyFile.path).Nodup →
      mem2 ((files.foldl
        (fun s f => analyzeExportsAndImports fs fuel pd f.path f.nodes1 s)
        st)).used_methods fp cls m := by
  induction files with
  | nil => intro st hex _; simp at hex
  | cons f₀ rest ih =>
    intro st hex hnodup
    rw [List.foldl_cons]
    obtain ⟨f, hf, hfp, hnode⟩ := hex
    rw [List.map_cons, List.nodup_cons] at hnodup
    rcases List.mem_cons.mp hf with rfl | hfrest
    · subst hfp
      apply mem2_pass1_files_other
      · intro g hg hgp
        exact hnodup.1 (hgp ▸ List.mem_map_of_mem PyFile.path hg)
      · exact mem2_analyzeExportsAndImports_marks fs fuel pd f.path cls m pos
          f.nodes1 st hnode
    · exact ih _ ⟨f, hfrest, hfp, hnode⟩ hnodup.2

/-- Membership `mem2` survives recording any usage fact. -/
theorem mem2_recordFact (fp' fp : Path) (cls m : String) (st : AnalyzerState)
    (u : UsageFact) (h : mem2 st.used_methods fp cls m) :
    mem2 (recordFact fp' st u).used_methods fp cls m := by
  cases u with
  | functionUse n => exact h
  | classUse n => exact h
  | methodUse c t => exact mem2_aupd_insert st.used_methods fp' fp c t cls m h

theorem mem2_foldl_recordFact (fp' fp : Path) (cls m : String)
    (l : List UsageFact) :
    ∀ st : AnalyzerState, mem2 st.used_methods fp cls m →
      mem2 ((l.foldl (recordFact fp') st)).used_methods fp cls m := by
  induction l with
  | nil => intro st h; exact h
  | cons u rest ih =>
    intro st h
    exact ih _ (mem2_recordFact fp' fp cls m st u h)

/-- Membership `mem2` survives every pass-2 node step. -/
theorem mem2_processUsageNode (fp' fp : Path) (cls m : String)
    (st : AnalyzerState) (n : UNode) (h : mem2 st.used_methods fp cls m) :
    mem2 (processUsageNode fp' st n).used_methods fp cls m := by
  cases n with
  | call func args encl => exact mem2_foldl_recordFact fp' fp cls m _ st h
  | nameLoad id =>
    show mem2 (if id ∈ akeys ((alookup st.defined_classes fp').getD [])
      then recordFact fp' st (UsageFact.classUse id) else st).used_methods fp cls m
    split
    · exact mem2_recordFact fp' fp cls m st _ h
    · exact h
  | other => exact h

theorem mem2_analyzeUsage (fp' fp : Path) (cls m : String) (nodes : List UNode) :
    ∀ st : AnalyzerState, mem2 st.used_methods fp cls m →
      mem2 (analyzeUsage fp' nodes st).used_methods fp cls m := by
  induction nodes with
  | nil => intro st h; exact h
  | cons n rest ih =>
    intro st h
    exact ih _ (mem2_processUsageNode fp' fp cls m st n h)

theorem mem2_pass2_files (fp : Path) (cls m : String) (files : List PyFile) :
    ∀ st : AnalyzerState, mem2 st.used_methods fp cls m →
      mem2 ((files.foldl (fun s f => analyzeUsage f.path f.nodes2 s)
        st)).used_methods fp cls m := by
  induction files with
  | nil => intro st h; exact h
  | cons f rest ih =>
    intro st h
    rw [List.foldl_cons]
    exact ih _ (mem2_analyzeUsage f.path fp cls m f.nodes2 st h)

/-- C6: a method declaration carrying a decorator is marked used during
pass 1, and consequently the liveness report never lists it among unused
methods, even with no call site or import anywhere; the file list here has
the scanner's guarantee of distinct paths. -/
theorem decorated_method_reported_used (fs : List Path) (fuel : Nat) (pd : Path)
    (files : List PyFile) (st : AnalyzerState) (f : PyFile) (cls m : String)
    (pos : Pos) (r : Report)
    (hf : f ∈ files)
    (hnode : PNode.funcDef m (some cls) true pos ∈ f.nodes1)
    (hnodup : (files.map PyFile.path).Nodup)
    (hr : getUnusedCodeReport (analyzeProject fs fuel pd files st) = some r) :
    methodMarkedUsed (analyzeProject fs fuel pd files st) f.path cls m ∧
    ¬ methodListedUnused r f.path cls m := by
  have hmark : mem2 (analyzeProject fs fuel pd files st).used_methods f.path cls m := by
    apply mem2_pass2_files
    exact mem2_pass1_marks fs fuel pd f.path cls m pos files st
      ⟨f, hf, rfl, hnode⟩ hnodup
  refine ⟨hmark, ?_⟩
  rintro ⟨cm, ms, pos', h1, h2, h3⟩
  obtain ⟨-, hum, -⟩ := getUnusedCodeReport_eq _ _ hr
  rw [hum] at h1
  have hfalse := unusedMethodsSection_spec _ _ _ _ h1 _ _ h2 _ _ h3
  obtain ⟨d, s, hd, hs, hm⟩ := hmark
  have htrue : isMethodUsed (analyzeProject fs fuel pd files st) f.path cls m
      = true := by
    simp [isMethodUsed, memberOfUsedMethods, hd, hs, hm]
  rw [htrue] at hfalse
  simp at hfalse

theorem decorated_method_reported_used_witness :
    methodMarkedUsed
      (analyzeProject [["proj", "c.py"]] 10 ["proj"]
        [⟨["proj", "c.py"],
          [PNode.classDef "C" (1, 0), PNode.funcDef "onEvent" (some "C") true (3, 4),
           PNode.funcDef "plain" (some "C") false (5, 4)], []⟩] initState)
      ["proj", "c.py"] "C" "onEvent" ∧
    ¬ methodListedUnused
        ⟨[], [(["proj", "c.py"], [("C", [("plain", 5, 4)])])],
         [(["proj", "c.py"], [("C", 1, 0)])]⟩
        ["proj", "c.py"] "C" "onEvent" :=
  decorated_method_reported_used [["proj", "c.py"]] 10 ["proj"]
    [⟨["proj", "c.py"],
      [PNode.classDef "C" (1, 0), PNode.funcDef "onEvent" (some "C") true (3, 4),
       PNode.funcDef "plain" (some "C") false (5, 4)], []⟩] initState
    ⟨["proj", "c.py"],
      [PNode.classDef "C" (1, 0), PNode.funcDef "onEvent" (some "C") true (3, 4),
       PNode.funcDef "plain" (some "C") false (5, 4)], []⟩ "C" "onEvent" (3, 4)
    ⟨[], [(["proj", "c.py"], [("C", [("plain", 5, 4)])])],
     [(["proj", "c.py"], [("C", 1, 0)])]⟩
    (by decide) (by decide) (by decide) (by decide)

/-! ### C10: the per-file maps are initialized together, so the report's
unguarded indexing is total on reachable states -/

theorem mem_akeys_cons {κ α : Type} (k' k₀ : κ) (v₀ : α) (tl : AList κ α) :
    k' ∈ akeys ((k₀, v₀) :: tl) ↔ k' = k₀ ∨ k' ∈ akeys tl := by
  simp [akeys]

theorem mem_akeys_aset_self {κ α : Type} [DecidableEq κ]
    (d : AList κ α) (k : κ) (v : α) : k ∈ akeys (aset d k v) := by
  induction d with
  | nil => simp [aset, akeys]
  | cons hd tl ih =>
    obtain ⟨k₀, v₀⟩ := hd
    by_cases h : k₀ = k
    · subst h
      rw [aset, if_pos rfl, mem_akeys_cons]
      exact Or.inl rfl
    · rw [aset, if_neg h, mem_akeys_cons]
      exact Or.inr ih

theorem mem_akeys_aset_of_mem {κ α : Type} [DecidableEq κ]
    (d : AList κ α) (k k' : κ) (v : α) (h : k' ∈ akeys d) :
    k' ∈ akeys (aset d k v) := by
  induction d with
  | nil => simp [akeys] at h
  | cons hd tl ih =>
    obtain ⟨k₀, v₀⟩ := hd
    rw [mem_akeys_cons] at h
    by_cases h0 : k₀ = k
    · subst h0
      rw [aset, if_pos rfl, mem_akeys_cons]
      exact h
    · rw [aset, if_neg h0, mem_akeys_cons]
      rcases h with h | h
      · exact Or.inl h
      · exact Or.inr (ih h)

theorem mem_akeys_aset_elim {κ α : Type} [DecidableEq κ]
    (d : AList κ α) (k k' : κ) (v : α) (h : k' ∈ akeys (aset d k v)) :
    k' = k ∨ k' ∈ akeys d := by
  induction d with
  | nil =>
    rw [aset, mem_akeys_cons] at h
    rcases h with h | h
    · exact Or.inl h
    · simp [akeys] at h
  | cons hd tl ih =>
    obtain ⟨k₀, v₀⟩ := hd
    by_cases h0 : k₀ = k
    · subst h0
      rw [aset, if_pos rfl, mem_akeys_cons] at h
      rcases h with h | h
      · exact Or.inl h
      · exact Or.inr ((mem_akeys_cons _ _ _ _).mpr (Or.inr h))
    · rw [aset, if_neg h0, mem_akeys_cons] at h
      rcases h with h | h
      · exact Or.inr ((mem_akeys_cons _ _ _ _).mpr (Or.inl h))
      · rcases ih h with h | h
        · exact Or.inl h
        · exact Or.inr ((mem_akeys_cons _ _ _ _).mpr (Or.inr h))

theorem isSome_alookup_of_mem_akeys {κ α : Type} [DecidableEq κ]
    (d : AList κ α) (k : κ) (h : k ∈ akeys d) : (alookup d k).isSome := by
  induction d with
  | nil => simp [akeys] at h
  | cons hd tl ih =>
    obtain ⟨k₀, v₀⟩ := hd
    by_cases h0 : k₀ = k
    · simp [alookup, h0]
    · rw [mem_akeys_cons] at h
      rcases h with h | h
      · exact absurd h.symm h0
      · simpa [alookup, h0] using ih h

/-- The safety invariant: every key of `defined_functions` is a key of
`used_functions`, and every key of `defined_classes` is a key of
`used_classes`. -/
def ReportSafe (st : AnalyzerState) : Prop :=
  (∀ fp, fp ∈ akeys st.defined_functions → fp ∈ akeys st.used_functions) ∧
  (∀ fp, fp ∈ akeys st.defined_classes → fp ∈ akeys st.used_classes)

/-- The four liveness-critical fields of the state. -/
def fcFields (st : AnalyzerState) :
    AList Path (AList String Pos) × AList Path (List String) ×
      AList Path (AList String Pos) × AList Path (List String) :=
  (st.defined_functions, st.used_functions, st.defined_classes, st.used_classes)

theorem fcFields_foldl_processImportAlias (fp : Path)
    (aliases : List (String × Option String)) :
    ∀ st : AnalyzerState,
      fcFields (aliases.foldl (processImportAlias fp) st) = fcFields st := by
  induction aliases with
  | nil => intro st; rfl
  | cons al rest ih =>
    intro st
    rw [List.foldl_cons, ih]
    rfl

theorem fcFields_processImportFromAlias (fp : Path) (src : Source)
    (st : AnalyzerState) (al : String × Option String) :
    fcFields (processImportFromAlias fp src st al) = fcFields st := by
  rw [processImportFromAlias.eq_def]
  split
  · split
    · next p =>
      cases halo : alookup st.file_exports p
      · simp [halo, fcFields]
      · simp [halo, fcFields]
    · rfl
  · rfl

theorem fcFields_foldl_processImportFromAlias (fp : Path) (src : Source)
    (aliases : List (String × Option String)) :
    ∀ st : AnalyzerState,
      fcFields (aliases.foldl (processImportFromAlias fp src) st) = fcFields st := by
  induction aliases with
  | nil => intro st; rfl
  | cons al rest ih =>
    intro st
    rw [List.foldl_cons, ih, fcFields_processImportFromAlias]

/-- A pass-1 node step never touches the `used_functions`/`used_classes`
maps, and touches the `defined_functions`/`defined_classes` maps only by a
single assignment at the processed file's own key. -/
theorem fcFields_processNode1 (fs : List Path) (fuel : Nat) (pd fp : Path)
    (st : AnalyzerState) (n : PNode) :
    (processNode1 fs fuel pd fp st n).used_functions = st.used_functions ∧
    (processNode1 fs fuel pd fp st n).used_classes = st.used_classes ∧
    ((processNode1 fs fuel pd fp st n).defined_functions = st.defined_functions ∨
      ∃ v, (processNode1 fs fuel pd fp st n).defined_functions
        = aset st.defined_functions fp v) ∧
    ((processNode1 fs fuel pd fp st n).defined_classes = st.defined_classes ∨
      ∃ v, (processNode1 fs fuel pd fp st n).defined_classes
        = aset st.defined_classes fp v) := by
  cases n with
  | funcDef name pc hasDec pos =>
    cases pc with
    | none => exact ⟨rfl, rfl, Or.inr ⟨_, rfl⟩, Or.inl rfl⟩
    | some cn =>
      cases hasDec with
      | false => exact ⟨rfl, rfl, Or.inl rfl, Or.inl rfl⟩
      | true => exact ⟨rfl, rfl, Or.inl rfl, Or.inl rfl⟩
  | classDef name pos => exact ⟨rfl, rfl, Or.inl rfl, Or.inr ⟨_, rfl⟩⟩
  | imp aliases =>
    have h := fcFields_foldl_processImportAlias fp aliases st
    simp only [fcFields, Prod.mk.injEq] at h
    exact ⟨h.2.1, h.2.2.2, Or.inl h.1, Or.inl h.2.2.1⟩
  | importFrom module level aliases =>
    rw [processNode1]
    cases resolveRelativeImport fs fuel fp (module.getD "") level pd with
    | none => exact ⟨rfl, rfl, Or.inl rfl, Or.inl rfl⟩
    | some src =>
      have h := fcFields_foldl_processImportFromAlias fp src aliases st
      simp only [fcFields, Prod.mk.injEq] at h
      exact ⟨h.2.1, h.2.2.2, Or.inl h.1, Or.inl h.2.2.1⟩
  | other => exact ⟨rfl, rfl, Or.inl rfl, Or.inl rfl⟩

/-- The strengthened pass-1 invariant: safety plus the current file's key
already present in both `used` maps. -/
theorem reportSafe_fold1 (fs : List Path) (fuel : Nat) (pd fp : Path)
    (nodes : List PNode) :
    ∀ st : AnalyzerState, ReportSafe st →
      fp ∈ akeys st.used_functions → fp ∈ akeys st.used_classes →
      ReportSafe (nodes.foldl (processNode1 fs fuel pd fp) st) := by
  induction nodes with
  | nil => intro st h _ _; exact h
  | cons n rest ih =>
    intro st h huf huc
    rw [List.foldl_cons]
    obtain ⟨huf', huc', hdf, hdc⟩ := fcFields_processNode1 fs fuel pd fp st n
    refine ih _ ⟨?_, ?_⟩ (huf' ▸ huf) (huc' ▸ huc)
    · intro q hq
      rw [huf']
      rcases hdf with hdf | ⟨v, hdf⟩
      · exact h.1 q (hdf ▸ hq)
      · rw [hdf] at hq
        rcases mem_akeys_aset_elim _ _ _ _ hq with rfl | hq
        · exact huf
        · exact h.1 q hq
    · intro q hq
      rw [huc']
      rcases hdc with hdc | ⟨v, hdc⟩
      · exact h.2 q (hdc ▸ hq)
      · rw [hdc] at hq
        rcases mem_akeys_aset_elim _ _ _ _ hq with rfl | hq
        · exact huc
        · exact h.2 q hq

/-- One pass-1 file (initialization plus walk) preserves safety. -/
theorem reportSafe_analyzeExportsAndImports (fs : List Path) (fuel : Nat)
    (pd fp : Path) (nodes : List PNode) (st : AnalyzerState)
    (h : ReportSafe st) :
    ReportSafe (analyzeExportsAndImports fs fuel pd fp nodes st) := by
  apply reportSafe_fold1
  · constructor
    · intro q hq
      show q ∈ akeys (aset st.used_functions fp [])
      rcases mem_akeys_aset_elim _ _ _ _ hq with rfl | hq
      · exact mem_akeys_aset_self _ _ _
      · exact mem_akeys_aset_of_mem _ _ _ _ (h.1 q hq)
    · intro q hq
      show q ∈ akeys (aset st.used_classes fp [])
      rcases mem_akeys_aset_elim _ _ _ _ hq with rfl | hq
      · exact mem_akeys_aset_self _ _ _
      · exact mem_akeys_aset_of_mem _ _ _ _ (h.2 q hq)
  · exact mem_akeys_aset_self _ _ _
  · exact mem_akeys_aset_self _ _ _

/-- A pass-2 usage fact never touches the `defined` maps, and only grows the
key sets of the `used` maps. -/
theorem reportSafe_recordFact (fp : Path) (st : AnalyzerState) (u : UsageFact)
    (h : ReportSafe st) : ReportSafe (recordFact fp st u) := by
  cases u with
  | functionUse n =>
    exact ⟨fun q hq => mem_akeys_aset_of_mem _ _ _ _ (h.1 q hq), h.2⟩
  | classUse n =>
    exact ⟨h.1, fun q hq => mem_akeys_aset_of_mem _ _ _ _ (h.2 q hq)⟩
  | methodUse c t => exact h

theorem reportSafe_processUsageNode (fp : Path) (st : AnalyzerState)
    (n : UNode) (h : ReportSafe st) : ReportSafe (processUsageNode fp st n) := by
  cases n with
  | call func args encl =>
    show ReportSafe (List.foldl (recordFact fp) st _)
    generalize (classifyCall (akeys ((alookup st.defined_classes fp).getD []))
      func args encl) = l
    induction l generalizing st with
    | nil => exact h
    | cons u rest ih => exact ih _ (reportSafe_recordFact fp st u h)
  | nameLoad id =>
    show ReportSafe (if _ then recordFact fp st (UsageFact.classUse id) else st)
    split
    · exact reportSafe_recordFact fp st _ h
    · exact h
  | other => exact h

theorem reportSafe_analyzeUsage (fp : Path) (nodes : List UNode) :
    ∀ st : AnalyzerState, ReportSafe st →
      ReportSafe (analyzeUsage fp nodes st) := by
  induction nodes with
  | nil => intro st h; exact h
  | cons n rest ih =>
    intro st h
    exact ih _ (reportSafe_processUsageNode fp st n h)

theorem reportSafe_analyzeProject (fs : List Path) (fuel : Nat) (pd : Path)
    (files : List PyFile) (st : AnalyzerState) (h : ReportSafe st) :
    ReportSafe (analyzeProject fs fuel pd files st) := by
  have h1 : ∀ (fl : List PyFile) (s : AnalyzerState), ReportSafe s →
      ReportSafe (fl.foldl
        (fun s f => analyzeExportsAndImports fs fuel pd f.path f.nodes1 s) s) := by
    intro fl
    induction fl with
    | nil => intro s hs; exact hs
    | cons f rest ih =>
      intro s hs
      exact ih _ (reportSafe_analyzeExportsAndImports fs fuel pd f.path f.nodes1 s hs)
  have h2 : ∀ (fl : List PyFile) (s : AnalyzerState), ReportSafe s →
      ReportSafe (fl.foldl (fun s f => analyzeUsage f.path f.nodes2 s) s) := by
    intro fl
    induction fl with
    | nil => intro s hs; exact hs
    | cons f rest ih =>
      intro s hs
      exact ih _ (reportSafe_analyzeUsage f.path f.nodes2 s hs)
  exact h2 files _ (h1 files st h)

theorem unusedFunctionsSection_isSome (st : AnalyzerState) :
    ∀ l : List (Path × AList String Pos),
      (∀ e ∈ l, (alookup st.used_functions e.1).isSome) →
      (unusedFunctionsSection st l).isSome := by
  intro l
  induction l with
  | nil => intro _; simp [unusedFunctionsSection]
  | cons e rest ih =>
    intro h
    obtain ⟨fp, functions⟩ := e
    rw [unusedFunctionsSection]
    cases hu : alookup st.used_functions fp with
    | none =>
      have := h (fp, functions) (List.mem_cons_self _ _)
      rw [hu] at this
      simp at this
    | some used =>
      cases ht : unusedFunctionsSection st rest with
      | none =>
        have := ih (fun e he => h e (List.mem_cons_of_mem _ he))
        rw [ht] at this
        simp at this
      | some tail => simp

theorem unusedClassesSection_isSome (st : AnalyzerState) :
    ∀ l : List (Path × AList String Pos),
      (∀ e ∈ l, (alookup st.used_classes e.1).isSome) →
      (unusedClassesSection st l).isSome := by
  intro l
  induction l with
  | nil => intro _; simp [unusedClassesSection]
  | cons e rest ih =>
    intro h
    obtain ⟨fp, classes⟩ := e
    rw [unusedClassesSection]
    cases hu : alookup st.used_classes fp with
    | none =>
      have := h (fp, classes) (List.mem_cons_self _ _)
      rw [hu] at this
      simp at this
    | some used =>
      cases ht : unusedClassesSection st rest with
      | none =>
        have := ih (fun e he => h e (List.mem_cons_of_mem _ he))
        rw [ht] at this
        simp at this
      | some tail => simp

/-- Safety implies the report computation succeeds (no `KeyError`). -/
theorem getUnusedCodeReport_isSome (st : AnalyzerState) (h : ReportSafe st) :
    (getUnusedCodeReport st).isSome := by
  have hf : (unusedFunctionsSection st st.defined_functions).isSome := by
    apply unusedFunctionsSection_isSome
    intro e he
    exact isSome_alookup_of_mem_akeys _ _
      (h.1 e.1 (List.mem_map_of_mem Prod.fst he))
  have hc : (unusedClassesSection st st.defined_classes).isSome := by
    apply unusedClassesSection_isSome
    intro e he
    exact isSome_alookup_of_mem_akeys _ _
      (h.2 e.1 (List.mem_map_of_mem Prod.fst he))
  rw [getUnusedCodeReport]
  cases huf : unusedFunctionsSection st st.defined_functions with
  | none => rw [huf] at hf; simp at hf
  | some uf =>
    cases huc : unusedClassesSection st st.defined_classes with
    | none => rw [huc] at hc; simp at hc
    | some uc => simp

/-- The analyzer states reachable through the public interface: a fresh
analyzer, or the result of any `analyze_project` run on a reachable state. -/
inductive Reachable : AnalyzerState → Prop where
  | init : Reachable initState
  | step (fs : List Path) (fuel : Nat) (pd : Path) (files : List PyFile)
      (st : AnalyzerState) : Reachable st →
      Reachable (analyzeProject fs fuel pd files st)

/-- C10: pass 1 initializes all eight per-file maps together, so on every
reachable analyzer state each key of `defined_functions` is a key of
`used_functions`, each key of `defined_classes` is a key of `used_classes`,
and the report generator's unguarded `used_functions[filepath]` /
`used_classes[filepath]` indexing never raises: the report computation
succeeds. -/
theorem reachable_report_never_fails (st : AnalyzerState) (h : Reachable st) :
    ReportSafe st ∧ (getUnusedCodeReport st).isSome := by
  have hsafe : ReportSafe st := by
    induction h with
    | init => exact ⟨fun q hq => by simp [initState, akeys] at hq,
        fun q hq => by simp [initState, akeys] at hq⟩
    | step fs fuel pd files st' _ ih =>
      exact reportSafe_analyzeProject fs fuel pd files st' ih
  exact ⟨hsafe, getUnusedCodeReport_isSome st hsafe⟩

theorem reachable_report_never_fails_witness :
    ReportSafe (analyzeProject [["proj", "m.py"]] 10 ["proj"]
      [⟨["proj", "m.py"], [PNode.funcDef "g" none false (1, 0)],
        [UNode.call (CallTarget.name "g") [] none]⟩] initState) ∧
    (getUnusedCodeReport (analyzeProject [["proj", "m.py"]] 10 ["proj"]
      [⟨["proj", "m.py"], [PNode.funcDef "g" none false (1, 0)],
        [UNode.call (CallTarget.name "g") [] none]⟩] initState)).isSome :=
  reachable_report_never_fails _
    (Reachable.step [["proj", "m.py"]] 10 ["proj"]
      [⟨["proj", "m.py"], [PNode.funcDef "g" none false (1, 0)],
        [UNode.call (CallTarget.name "g") [] none]⟩] initState Reachable.init)

/-! ### C8: the scanner returns exactly the non-excluded `.py` files -/

mutual

/-- Characterization of `get_py_files`, proved mutually with its list
companion. -/
theorem mem_getPyFiles_aux (exclude : List String) (path : Path) (t : DirTree)
    (p : Path) :
    p ∈ getPyFiles exclude path t ↔
    ∃ chain f, (chain, f) ∈ allFiles t ∧ strEndsWith f ".py" = true ∧
      (∀ d ∈ chain, d ∉ exclude) ∧ p = path ++ chain ++ [f] := by
  cases t with
  | dir name subdirs files =>
    rw [getPyFiles, allFiles]
    constructor
    · intro h
      rcases List.mem_append.mp h with h | h
      · obtain ⟨f, hf, rfl⟩ := List.mem_map.mp h
        obtain ⟨hfm, hpy⟩ := List.mem_filter.mp hf
        refine ⟨[], f, ?_, hpy, by simp, by simp⟩
        exact List.mem_append_left _ (List.mem_map.mpr ⟨f, hfm, rfl⟩)
      · obtain ⟨chain, f, hmem, hpy, hcl, rfl⟩ :=
          (mem_getPyFilesList_aux exclude path subdirs p).mp h
        exact ⟨chain, f, List.mem_append_right _ hmem, hpy, hcl, rfl⟩
    · rintro ⟨chain, f, hmem, hpy, hcl, rfl⟩
      rcases List.mem_append.mp hmem with hmem | hmem
      · obtain ⟨f', hf', heq⟩ := List.mem_map.mp hmem
        cases heq
        apply List.mem_append_left
        exact List.mem_map.mpr ⟨f, List.mem_filter.mpr ⟨hf', hpy⟩, by simp⟩
      · apply List.mem_append_right
        exact (mem_getPyFilesList_aux exclude path subdirs _).mpr
          ⟨chain, f, hmem, hpy, hcl, rfl⟩

theorem mem_getPyFilesList_aux (exclude : List String) (path : Path)
    (ds : List DirTree) (p : Path) :
    p ∈ getPyFilesList exclude path ds ↔
    ∃ chain f, (chain, f) ∈ allFilesList ds ∧ strEndsWith f ".py" = true ∧
      (∀ d ∈ chain, d ∉ exclude) ∧ p = path ++ chain ++ [f] := by
  cases ds with
  | nil =>
    rw [getPyFilesList, allFilesList]
    simp
  | cons d ds =>
    rw [getPyFilesList, allFilesList]
    constructor
    · intro h
      rcases List.mem_append.mp h with h | h
      · by_cases hex : d.dirName ∈ exclude
        · rw [if_pos hex] at h
          simp at h
        · rw [if_neg hex] at h
          obtain ⟨chain, f, hmem, hpy, hcl, rfl⟩ :=
            (mem_getPyFiles_aux exclude (path ++ [d.dirName]) d p).mp h
          refine ⟨d.dirName :: chain, f, ?_, hpy, ?_, by simp⟩
          · exact List.mem_append_left _
              (List.mem_map.mpr ⟨(chain, f), hmem, rfl⟩)
          · intro x hx
            rcases List.mem_cons.mp hx with rfl | hx
            · exact hex
            · exact hcl x hx
      · obtain ⟨chain, f, hmem, hpy, hcl, rfl⟩ :=
          (mem_getPyFilesList_aux exclude path ds p).mp h
        exact ⟨chain, f, List.mem_append_right _ hmem, hpy, hcl, rfl⟩
    · rintro ⟨chain, f, hmem, hpy, hcl, rfl⟩
      rcases List.mem_append.mp hmem with hmem | hmem
      · obtain ⟨⟨chain', f'⟩, hmem', heq⟩ := List.mem_map.mp hmem
        cases heq
        apply List.mem_append_left
        have hex : d.dirName ∉ exclude := hcl d.dirName (List.mem_cons_self _ _)
        rw [if_neg hex]
        exact (mem_getPyFiles_aux exclude (path ++ [d.dirName]) d _).mpr
          ⟨chain', f', hmem', hpy, fun x hx => hcl x (List.mem_cons_of_mem _ hx),
           by simp⟩
      · apply List.mem_append_right
        exact (mem_getPyFilesList_aux exclude path ds _).mpr
          ⟨chain, f, hmem, hpy, hcl, rfl⟩

end

/-- C8: `get_py_files` returns exactly the `.py` files under the root,
recursively, excluding every file lying under a subdirectory whose name is in
the exclusion list: a path is produced iff it is `root ++ chain ++ [f]` for a
file `f` of the tree reached through the directory-name chain `chain`, with
`f` ending in `.py` and no directory on the chain excluded.  Since
`run_analysis` iterates exactly over this list, no file under an excluded
directory reaches the analysis. -/
theorem getPyFiles_exactly_nonexcluded (exclude : List String) (root : Path)
    (t : DirTree) (p : Path) :
    p ∈ getPyFiles exclude root t ↔
    ∃ chain f, (chain, f) ∈ allFiles t ∧ strEndsWith f ".py" = true ∧
      (∀ d ∈ chain, d ∉ exclude) ∧ p = root ++ chain ++ [f] :=
  mem_getPyFiles_aux exclude root t p

/-! ### Assignment-chain algebra, towards the no-wildcard idempotence of
re-analysis (C9) -/

/-- Overwriting the same key twice keeps only the last value. -/
theorem aset_aset_same {κ α : Type} [DecidableEq κ]
    (d : AList κ α) (k : κ) (v w : α) : aset (aset d k v) k w = aset d k w := by
  induction d with
  | nil => simp [aset]
  | cons hd tl ih =>
    obtain ⟨k₀, v₀⟩ := hd
    by_cases h : k₀ = k
    · subst h; simp [aset]
    · simp [aset, h, ih]

/-- Updating via `aupd` on a freshly assigned key is an assignment of the updated value. -/
theorem aupd_aset {κ α : Type} [DecidableEq κ]
    (d : AList κ α) (k : κ) (v dflt : α) (g : α → α) :
    aupd (aset d k v) k dflt g = aset d k (g v) := by
  rw [aupd, alookup_aset_self]
  exact aset_aset_same d k v (g v)

/-- Assignments to distinct keys commute when the first key is already
present (so neither order moves it). -/
theorem aset_comm_of_mem {κ α : Type} [DecidableEq κ]
    (d : AList κ α) (k k₁ : κ) (w v₁ : α) (hne : k ≠ k₁) (hk : k ∈ akeys d) :
    aset (aset d k₁ v₁) k w = aset (aset d k w) k₁ v₁ := by
  induction d with
  | nil => simp [akeys] at hk
  | cons hd tl ih =>
    obtain ⟨k₀, v₀⟩ := hd
    rw [mem_akeys_cons] at hk
    by_cases h0 : k₀ = k
    · subst h0
      simp [aset, hne]
    · by_cases h1 : k₀ = k₁
      · subst h1
        simp [aset, h0]
      · rcases hk with hk | hk
        · exact absurd hk.symm h0
        · simp [aset, h0, h1, ih hk]

/-- Apply a list of keyed assignments in order. -/
def asets {κ α : Type} [DecidableEq κ] (d : AList κ α) :
    List (κ × α) → AList κ α
  | [] => d
  | (k, v) :: ws => asets (aset d k v) ws

theorem asets_append {κ α : Type} [DecidableEq κ]
    (ws₁ ws₂ : List (κ × α)) :
    ∀ d : AList κ α, asets d (ws₁ ++ ws₂) = asets (asets d ws₁) ws₂ := by
  induction ws₁ with
  | nil => intro d; rfl
  | cons w rest ih =>
    intro d
    obtain ⟨k, v⟩ := w
    rw [List.cons_append, asets, asets, ih]

theorem mem_akeys_asets_of_mem {κ α : Type} [DecidableEq κ]
    (ws : List (κ × α)) :
    ∀ (d : AList κ α) (k : κ), k ∈ akeys d → k ∈ akeys (asets d ws) := by
  induction ws with
  | nil => intro d k h; exact h
  | cons w rest ih =>
    intro d k h
    obtain ⟨k₀, v₀⟩ := w
    exact ih _ k (mem_akeys_aset_of_mem _ _ _ _ h)

/-- A present-key assignment commutes past a chain of assignments to other
keys. -/
theorem aset_asets_comm_of_mem {κ α : Type} [DecidableEq κ]
    (ws : List (κ × α)) :
    ∀ (d : AList κ α) (k : κ) (w : α), k ∈ akeys d →
      (∀ e ∈ ws, e.1 ≠ k) →
      aset (asets d ws) k w = asets (aset d k w) ws := by
  induction ws with
  | nil => intro d k w _ _; rfl
  | cons e rest ih =>
    intro d k w hk hdis
    obtain ⟨k₁, v₁⟩ := e
    have hne : k ≠ k₁ := fun h =>
      (hdis (k₁, v₁) (List.mem_cons_self _ _)) h.symm
    rw [asets, asets, ih _ k w (mem_akeys_aset_of_mem _ _ _ _ hk)
      (fun e he => hdis e (List.mem_cons_of_mem _ he)),
      aset_comm_of_mem d k k₁ w v₁ hne hk]

/-- Re-applying a chain of assignments whose keys (in order) match those of a
chain already applied overwrites it exactly: only the later values and the
established key order remain. -/
theorem asets_overwrite {κ α : Type} [DecidableEq κ]
    (ws₁ ws₂ : List (κ × α)) :
    ∀ d : AList κ α, ws₁.map Prod.fst = ws₂.map Prod.fst →
      (ws₁.map Prod.fst).Nodup →
      asets (asets d ws₁) ws₂ = asets d ws₂ := by
  induction ws₁ generalizing ws₂ with
  | nil =>
    intro d hkeys _
    cases ws₂ with
    | nil => rfl
    | cons e rest => simp at hkeys
  | cons e₁ rest₁ ih =>
    intro d hkeys hnodup
    obtain ⟨k, v⟩ := e₁
    cases ws₂ with
    | nil => simp at hkeys
    | cons e₂ rest₂ =>
      obtain ⟨k₂, w⟩ := e₂
      simp only [List.map_cons, List.cons.injEq] at hkeys
      obtain ⟨rfl, hkeys⟩ := hkeys
      rw [List.map_cons, List.nodup_cons] at hnodup
      rw [asets, asets, asets]
      have hcomm : aset (asets (aset d k v) rest₁) k w
          = asets (aset (aset d k v) k w) rest₁ := by
        apply aset_asets_comm_of_mem
        · exact mem_akeys_aset_self _ _ _
        · intro e he hek
          have hmem : e.1 ∈ rest₁.map Prod.fst := List.mem_map_of_mem Prod.fst he
          rw [hek] at hmem
          exact hnodup.1 hmem
      calc asets (aset (asets (aset d k v) rest₁) k w) rest₂
          = asets (asets (aset (aset d k v) k w) rest₁) rest₂ := by rw [hcomm]
        _ = asets (asets (aset d k w) rest₁) rest₂ := by rw [aset_aset_same]
        _ = asets (aset d k w) rest₂ := ih rest₂ _ hkeys hnodup.2

theorem alookup_asets_not_mem {κ α : Type} [DecidableEq κ]
    (ws : List (κ × α)) :
    ∀ (d : AList κ α) (k : κ), (∀ e ∈ ws, e.1 ≠ k) →
      alookup (asets d ws) k = alookup d k := by
  induction ws with
  | nil => intro d k _; rfl
  | cons e rest ih =>
    intro d k hdis
    obtain ⟨k₁, v₁⟩ := e
    rw [asets, ih _ k (fun e he => hdis e (List.mem_cons_of_mem _ he)),
      alookup_aset_ne]
    exact hdis (k₁, v₁) (List.mem_cons_self _ _)

/-- The eight per-file entries of the analyzer's maps, used to factor a run
into state-independent per-file contributions. -/
structure FileEntries where
  fe : List String
  fi : AList Source (List String)
  df : AList String Pos
  uf : List String
  dc : AList String Pos
  uc : List String
  dm : AList String (AList String Pos)
  um : AList String (List String)
deriving DecidableEq, Repr

/-- All-empty entries: the pass-1 per-file initialization. -/
def emptyEntries : FileEntries := ⟨[], [], [], [], [], [], [], []⟩

/-- Overwrite one file's entries in every map of the state. -/
def applyEntries (st : AnalyzerState) (fp : Path) (e : FileEntries) :
    AnalyzerState :=
  { file_exports := aset st.file_exports fp e.fe,
    file_imports := aset st.file_imports fp e.fi,
    defined_functions := aset st.defined_functions fp e.df,
    used_functions := aset st.used_functions fp e.uf,
    defined_classes := aset st.defined_classes fp e.dc,
    used_classes := aset st.used_classes fp e.uc,
    defined_methods := aset st.defined_methods fp e.dm,
    used_methods := aset st.used_methods fp e.um }

/-- Entry-level recomputation of one pass-1 import alias. -/
def entryImportAlias (e : FileEntries) (al : String × Option String) :
    FileEntries :=
  { e with fi := (aupd e.fi (Source.module al.1) []
      (fun s => sinsert s (al.2.getD al.1))) }

/-- Entry-level recomputation of one pass-1 `from`-import alias.  The
wildcard copy reads another file's export set and is therefore not
representable here; the agreement lemma below assumes the alias is not
`"*"`. -/
def entryImportFromAlias (src : Source) (e : FileEntries)
    (al : String × Option String) : FileEntries :=
  { e with fi := aupd e.fi src [] (fun s => sinsert s (al.2.getD al.1)) }

/-- Entry-level recomputation of one pass-1 node (valid for nodes without
wildcard aliases). -/
def entryNode1 (fs : List Path) (fuel : Nat) (pd fp : Path)
    (e : FileEntries) : PNode → FileEntries
  | .funcDef name pc hasDec pos =>
    match pc with
    | none => { e with fe := sinsert e.fe name, df := aset e.df name pos }
    | some cn =>
      let e := if hasDec
        then { e with um := aupd e.um cn [] (fun s => sinsert s name) }
        else e
      { e with dm := aupd e.dm cn [] (fun m => aset m name pos) }
  | .classDef name pos =>
    { e with
      fe := sinsert e.fe name,
      dc := aset e.dc name pos,
      dm := aset e.dm name [] }
  | .imp aliases => aliases.foldl entryImportAlias e
  | .importFrom module level aliases =>
    match resolveRelativeImport fs fuel fp (module.getD "") level pd with
    | some src => aliases.foldl (entryImportFromAlias src) e
    | none => e
  | .other => e

/-- No-wildcard condition on one pass-1 node. -/
def noWildcardNode : PNode → Prop
  | .importFrom _ _ aliases => ∀ al ∈ aliases, al.1 ≠ "*"
  | _ => True

/-- No wildcard import anywhere in the project's pass-1 walks. -/
def noWildcard (files : List PyFile) : Prop :=
  ∀ f ∈ files, ∀ n ∈ f.nodes1, noWildcardNode n

theorem processImportAlias_applyEntries (fp : Path) (st : AnalyzerState)
    (e : FileEntries) (al : String × Option String) :
    processImportAlias fp (applyEntries st fp e) al
      = applyEntries st fp (entryImportAlias e al) := by
  simp only [processImportAlias, applyEntries, entryImportAlias, aupd_aset]

theorem processImportFromAlias_applyEntries (fp : Path) (src : Source)
    (st : AnalyzerState) (e : FileEntries) (al : String × Option String)
    (hstar : al.1 ≠ "*") :
    processImportFromAlias fp src (applyEntries st fp e) al
      = applyEntries st fp (entryImportFromAlias src e al) := by
  rw [processImportFromAlias.eq_def]
  simp only [hstar, if_false]
  simp only [applyEntries, entryImportFromAlias, aupd_aset]

theorem foldl_processImportAlias_applyEntries (fp : Path)
    (aliases : List (String × Option String)) :
    ∀ (st : AnalyzerState) (e : FileEntries),
      aliases.foldl (processImportAlias fp) (applyEntries st fp e)
        = applyEntries st fp (aliases.foldl entryImportAlias e) := by
  induction aliases with
  | nil => intro st e; rfl
  | cons al rest ih =>
    intro st e
    rw [List.foldl_cons, List.foldl_cons, processImportAlias_applyEntries, ih]

theorem foldl_processImportFromAlias_applyEntries (fp : Path) (src : Source)
    (aliases : List (String × Option String))
    (hstar : ∀ al ∈ aliases, al.1 ≠ "*") :
    ∀ (st : AnalyzerState) (e : FileEntries),
      aliases.foldl (processImportFromAlias fp src) (applyEntries st fp e)
        = applyEntries st fp (aliases.foldl (entryImportFromAlias src) e) := by
  induction aliases with
  | nil => intro st e; rfl
  | cons al rest ih =>
    intro st e
    rw [List.foldl_cons, List.foldl_cons,
      processImportFromAlias_applyEntries fp src st e al
        (hstar al (List.mem_cons_self _ _)),
      ih (fun a ha => hstar a (List.mem_cons_of_mem _ ha))]

/-- Agreement: on a state whose `fp` entries are `e`, a no-wildcard pass-1
node step only rewrites the `fp` entries, by `entryNode1`. -/
theorem processNode1_applyEntries (fs : List Path) (fuel : Nat) (pd fp : Path)
    (st : AnalyzerState) (e : FileEntries) (n : PNode)
    (hnw : noWildcardNode n) :
    processNode1 fs fuel pd fp (applyEntries st fp e) n
      = applyEntries st fp (entryNode1 fs fuel pd fp e n) := by
  cases n with
  | funcDef name pc hasDec pos =>
    cases pc with
    | none =>
      simp only [processNode1, entryNode1, applyEntries, aupd_aset]
    | some cn =>
      cases hasDec with
      | false =>
        simp only [processNode1, entryNode1, applyEntries, aupd_aset,
          if_false, Bool.false_eq_true]
      | true =>
        simp only [processNode1, entryNode1, applyEntries, aupd_aset, if_true]
  | classDef name pos =>
    simp only [processNode1, entryNode1, applyEntries, aupd_aset]
  | imp aliases =>
    show aliases.foldl (processImportAlias fp) (applyEntries st fp e)
      = applyEntries st fp (aliases.foldl entryImportAlias e)
    exact foldl_processImportAlias_applyEntries fp aliases st e
  | importFrom module level aliases =>
    cases hres : resolveRelativeImport fs fuel fp (module.getD "") level pd with
    | none => simp only [processNode1, entryNode1, hres]
    | some src =>
      simp only [processNode1, entryNode1, hres]
      exact foldl_processImportFromAlias_applyEntries fp src aliases hnw st e
  | other => rfl

theorem foldl_processNode1_applyEntries (fs : List Path) (fuel : Nat)
    (pd fp : Path) (nodes : List PNode) (hnw : ∀ n ∈ nodes, noWildcardNode n) :
    ∀ (st : AnalyzerState) (e : FileEntries),
      nodes.foldl (processNode1 fs fuel pd fp) (applyEntries st fp e)
        = applyEntries st fp (nodes.foldl (entryNode1 fs fuel pd fp) e) := by
  induction nodes with
  | nil => intro st e; rfl
  | cons n rest ih =>
    intro st e
    rw [List.foldl_cons, List.foldl_cons,
      processNode1_applyEntries fs fuel pd fp st e n
        (hnw n (List.mem_cons_self _ _)),
      ih (fun n hn => hnw n (List.mem_cons_of_mem _ hn))]

/-- The pass-1 contribution of one file, independent of the incoming state. -/
def pass1Entries (fs : List Path) (fuel : Nat) (pd : Path) (f : PyFile) :
    FileEntries :=
  f.nodes1.foldl (entryNode1 fs fuel pd f.path) emptyEntries

/-- Pass 1 (`_analyze_exports_and_imports`) of a no-wildcard file overwrites exactly
its own entries, with a state-independent value. -/
theorem analyzeExportsAndImports_applyEntries (fs : List Path) (fuel : Nat)
    (pd : Path) (f : PyFile) (hnw : ∀ n ∈ f.nodes1, noWildcardNode n)
    (st : AnalyzerState) :
    analyzeExportsAndImports fs fuel pd f.path f.nodes1 st
      = applyEntries st f.path (pass1Entries fs fuel pd f) := by
  have hinit : analyzeExportsAndImports fs fuel pd f.path f.nodes1 st
      = f.nodes1.foldl (processNode1 fs fuel pd f.path)
          (applyEntries st f.path emptyEntries) := rfl
  rw [hinit, foldl_processNode1_applyEntries fs fuel pd f.path f.nodes1 hnw]
  rfl

/-- Assigning a key its current value changes nothing. -/
theorem aset_of_alookup_eq {κ α : Type} [DecidableEq κ]
    (d : AList κ α) (k : κ) (v : α) (h : alookup d k = some v) :
    aset d k v = d := by
  induction d with
  | nil => simp [alookup] at h
  | cons hd tl ih =>
    obtain ⟨k₀, v₀⟩ := hd
    by_cases h0 : k₀ = k
    · subst h0
      rw [alookup, if_pos rfl] at h
      obtain ⟨rfl⟩ := h
      simp [aset]
    · rw [alookup, if_neg h0] at h
      simp [aset, h0, ih h]

theorem alookup_asets_of_mem_nodup {κ α : Type} [DecidableEq κ]
    (ws : List (κ × α)) (hnodup : (ws.map Prod.fst).Nodup) (k : κ) (v : α)
    (hmem : (k, v) ∈ ws) :
    ∀ d : AList κ α, alookup (asets d ws) k = some v := by
  induction ws with
  | nil => simp at hmem
  | cons w rest ih =>
    intro d
    obtain ⟨k₀, v₀⟩ := w
    rw [List.map_cons, List.nodup_cons] at hnodup
    rcases List.mem_cons.mp hmem with heq | hmem'
    · obtain ⟨rfl, rfl⟩ := Prod.mk.injEq .. ▸ heq
      rw [asets, alookup_asets_not_mem]
      · exact alookup_aset_self _ _ _
      · intro e he hek
        have : e.1 ∈ rest.map Prod.fst := List.mem_map_of_mem Prod.fst he
        rw [hek] at this
        exact hnodup.1 this
    · rw [asets]
      exact ih hnodup.2 hmem' _

/-- The pass-2 evolving per-file entries: the used-functions, used-classes
and used-methods sets of one file. -/
structure UsageEntries where
  uf : List String
  uc : List String
  um : AList String (List String)
deriving DecidableEq, Repr

/-- Overwrite one file's pass-2 entries. -/
def applyUsage (st : AnalyzerState) (fp : Path) (t : UsageEntries) :
    AnalyzerState :=
  { st with
    used_functions := aset st.used_functions fp t.uf,
    used_classes := aset st.used_classes fp t.uc,
    used_methods := aset st.used_methods fp t.um }

/-- Entry-level recomputation of recording one usage fact. -/
def entryRecordFact (t : UsageEntries) : UsageFact → UsageEntries
  | .functionUse n => { t with uf := sinsert t.uf n }
  | .methodUse c mm => { t with um := (aupd t.um c [] (fun s => sinsert s mm)) }
  | .classUse n => { t with uc := sinsert t.uc n }

/-- Entry-level recomputation of one pass-2 node, given the file's
defined-classes entry. -/
def entryUsageNode (dc : AList String Pos) (t : UsageEntries) :
    UNode → UsageEntries
  | .call func args encl =>
    (classifyCall (akeys dc) func args encl).foldl entryRecordFact t
  | .nameLoad id =>
    if id ∈ akeys dc then entryRecordFact t (.classUse id) else t
  | .other => t

theorem recordFact_applyUsage (fp : Path) (st : AnalyzerState)
    (t : UsageEntries) (u : UsageFact) :
    recordFact fp (applyUsage st fp t) u
      = applyUsage st fp (entryRecordFact t u) := by
  cases u with
  | functionUse n =>
    simp only [recordFact, entryRecordFact, applyUsage, aupd_aset]
  | methodUse c mm =>
    simp only [recordFact, entryRecordFact, applyUsage, aupd_aset]
  | classUse n =>
    simp only [recordFact, entryRecordFact, applyUsage, aupd_aset]

theorem foldl_recordFact_applyUsage (fp : Path) (l : List UsageFact) :
    ∀ (st : AnalyzerState) (t : UsageEntries),
      l.foldl (recordFact fp) (applyUsage st fp t)
        = applyUsage st fp (l.foldl entryRecordFact t) := by
  induction l with
  | nil => intro st t; rfl
  | cons u rest ih =>
    intro st t
    rw [List.foldl_cons, List.foldl_cons, recordFact_applyUsage, ih]

theorem processUsageNode_applyUsage (fp : Path) (st : AnalyzerState)
    (t : UsageEntries) (n : UNode) :
    processUsageNode fp (applyUsage st fp t) n
      = applyUsage st fp
          (entryUsageNode ((alookup st.defined_classes fp).getD []) t n) := by
  cases n with
  | call func args encl =>
    show (classifyCall (akeys ((alookup (applyUsage st fp t).defined_classes
        fp).getD [])) func args encl).foldl (recordFact fp) (applyUsage st fp t)
      = _
    have hdc : (applyUsage st fp t).defined_classes = st.defined_classes := rfl
    rw [hdc]
    exact foldl_recordFact_applyUsage fp _ st t
  | nameLoad id =>
    show (if id ∈ akeys ((alookup (applyUsage st fp t).defined_classes
        fp).getD []) then recordFact fp (applyUsage st fp t)
          (UsageFact.classUse id) else applyUsage st fp t) = _
    have hdc : (applyUsage st fp t).defined_classes = st.defined_classes := rfl
    rw [hdc]
    show _ = applyUsage st fp (if id ∈ akeys ((alookup st.defined_classes
        fp).getD []) then entryRecordFact t (.classUse id) else t)
    split
    · exact recordFact_applyUsage fp st t _
    · rfl
  | other => rfl

theorem analyzeUsage_applyUsage (fp : Path) (nodes : List UNode) :
    ∀ (st : AnalyzerState) (t : UsageEntries),
      analyzeUsage fp nodes (applyUsage st fp t)
        = applyUsage st fp
            (nodes.foldl
              (entryUsageNode ((alookup st.defined_classes fp).getD [])) t) := by
  induction nodes with
  | nil => intro st t; rfl
  | cons n rest ih =>
    intro st t
    show analyzeUsage fp rest (processUsageNode fp (applyUsage st fp t) n) = _
    rw [processUsageNode_applyUsage, ih, List.foldl_cons]

/-- Pass 2 (`_analyze_usage`) on a state whose per-file used-entries are present
rewrites exactly those entries, with a value depending only on the file's
current entries. -/
theorem analyzeUsage_eq_applyUsage (fp : Path) (nodes : List UNode)
    (T : AnalyzerState) (UF UC : List String)
    (UM : AList String (List String))
    (h1 : alookup T.used_functions fp = some UF)
    (h2 : alookup T.used_classes fp = some UC)
    (h3 : alookup T.used_methods fp = some UM) :
    analyzeUsage fp nodes T
      = applyUsage T fp
          (nodes.foldl
            (entryUsageNode ((alookup T.defined_classes fp).getD []))
            ⟨UF, UC, UM⟩) := by
  have hT : applyUsage T fp ⟨UF, UC, UM⟩ = T := by
    cases T
    simp only [applyUsage] at h1 h2 h3 ⊢
    rw [aset_of_alookup_eq _ _ _ h1, aset_of_alookup_eq _ _ _ h2,
      aset_of_alookup_eq _ _ _ h3]
  calc analyzeUsage fp nodes T
      = analyzeUsage fp nodes (applyUsage T fp ⟨UF, UC, UM⟩) := by rw [hT]
    _ = _ := analyzeUsage_applyUsage fp nodes T ⟨UF, UC, UM⟩

/-- Pass-1 write list for one projection of the per-file entries. -/
def w1of {α : Type} (fs : List Path) (fuel : Nat) (pd : Path)
    (files : List PyFile) (g : FileEntries → α) : List (Path × α) :=
  files.map (fun f => (f.path, g (pass1Entries fs fuel pd f)))

theorem w1of_keys {α : Type} (fs : List Path) (fuel : Nat) (pd : Path)
    (files : List PyFile) (g : FileEntries → α) :
    (w1of fs fuel pd files g).map Prod.fst = files.map PyFile.path := by
  simp [w1of, List.map_map]

/-- Pass 1 over a no-wildcard file list is a chain of per-file assignments
with state-independent values. -/
theorem pass1_fold_asets (fs : List Path) (fuel : Nat) (pd : Path) :
    ∀ (files : List PyFile), noWildcard files →
    ∀ σ : AnalyzerState,
      files.foldl
        (fun s f => analyzeExportsAndImports fs fuel pd f.path f.nodes1 s) σ
        = { file_exports := asets σ.file_exports (w1of fs fuel pd files FileEntries.fe),
            file_imports := asets σ.file_imports (w1of fs fuel pd files FileEntries.fi),
            defined_functions := asets σ.defined_functions (w1of fs fuel pd files FileEntries.df),
            used_functions := asets σ.used_functions (w1of fs fuel pd files FileEntries.uf),
            defined_classes := asets σ.defined_classes (w1of fs fuel pd files FileEntries.dc),
            used_classes := asets σ.used_classes (w1of fs fuel pd files FileEntries.uc),
            defined_methods := asets σ.defined_methods (w1of fs fuel pd files FileEntries.dm),
            used_methods := asets σ.used_methods (w1of fs fuel pd files FileEntries.um) } := by
  intro files
  induction files with
  | nil => intro _ σ; rfl
  | cons f rest ih =>
    intro hnw σ
    rw [List.foldl_cons,
      analyzeExportsAndImports_applyEntries fs fuel pd f
        (fun n hn => hnw f (List.mem_cons_self _ _) n hn),
      ih (fun g hg n hn => hnw g (List.mem_cons_of_mem _ hg) n hn)]
    rfl

/-- The pass-2 contribution of one file, computed from its own pass-1
entries. -/
def pass2Entries (fs : List Path) (fuel : Nat) (pd : Path) (f : PyFile) :
    UsageEntries :=
  f.nodes2.foldl (entryUsageNode (pass1Entries fs fuel pd f).dc)
    ⟨(pass1Entries fs fuel pd f).uf, (pass1Entries fs fuel pd f).uc,
     (pass1Entries fs fuel pd f).um⟩

/-- Pass-2 write list for one projection. -/
def w2of {α : Type} (fs : List Path) (fuel : Nat) (pd : Path)
    (files : List PyFile) (g : UsageEntries → α) : List (Path × α) :=
  files.map (fun f => (f.path, g (pass2Entries fs fuel pd f)))

theorem w2of_keys {α : Type} (fs : List Path) (fuel : Nat) (pd : Path)
    (files : List PyFile) (g : UsageEntries → α) :
    (w2of fs fuel pd files g).map Prod.fst = files.map PyFile.path := by
  simp [w2of, List.map_map]

/-- Pass 2, started from any state whose per-file entries are the pass-1
values, is a chain of per-file assignments with state-independent values. -/
theorem pass2_fold_asets (fs : List Path) (fuel : Nat) (pd : Path) :
    ∀ (files : List PyFile), (files.map PyFile.path).Nodup →
    ∀ σ : AnalyzerState,
      (∀ f ∈ files,
        alookup σ.defined_classes f.path = some (pass1Entries fs fuel pd f).dc ∧
        alookup σ.used_functions f.path = some (pass1Entries fs fuel pd f).uf ∧
        alookup σ.used_classes f.path = some (pass1Entries fs fuel pd f).uc ∧
        alookup σ.used_methods f.path = some (pass1Entries fs fuel pd f).um) →
      files.foldl (fun s f => analyzeUsage f.path f.nodes2 s) σ
        = { σ with
            used_functions := asets σ.used_functions (w2of fs fuel pd files UsageEntries.uf),
            used_classes := asets σ.used_classes (w2of fs fuel pd files UsageEntries.uc),
            used_methods := asets σ.used_methods (w2of fs fuel pd files UsageEntries.um) } := by
  intro files
  induction files with
  | nil => intro _ σ _; rfl
  | cons f rest ih =>
    intro hnodup σ hlook
    obtain ⟨hdc, huf, huc, hum⟩ := hlook f (List.mem_cons_self _ _)
    rw [List.map_cons, List.nodup_cons] at hnodup
    rw [List.foldl_cons,
      analyzeUsage_eq_applyUsage f.path f.nodes2 σ _ _ _ huf huc hum]
    have hdc' : ((alookup σ.defined_classes f.path).getD [])
        = (pass1Entries fs fuel pd f).dc := by rw [hdc]; rfl
    rw [hdc']
    have hstep : applyUsage σ f.path
        (List.foldl (entryUsageNode (pass1Entries fs fuel pd f).dc)
          ⟨(pass1Entries fs fuel pd f).uf, (pass1Entries fs fuel pd f).uc,
           (pass1Entries fs fuel pd f).um⟩ f.nodes2)
        = applyUsage σ f.path (pass2Entries fs fuel pd f) := rfl
    rw [hstep]
    have hne : ∀ g ∈ rest, g.path ≠ f.path := by
      intro g hg hgp
      exact hnodup.1 (hgp ▸ List.mem_map_of_mem PyFile.path hg)
    rw [ih hnodup.2 _ ?_]
    · rfl
    · intro g hg
      obtain ⟨h1, h2, h3, h4⟩ := hlook g (List.mem_cons_of_mem _ hg)
      refine ⟨h1, ?_, ?_, ?_⟩
      · show alookup (aset σ.used_functions f.path _) g.path = _
        rw [alookup_aset_ne _ _ _ _ (fun h => hne g hg h.symm)]
        exact h2
      · show alookup (aset σ.used_classes f.path _) g.path = _
        rw [alookup_aset_ne _ _ _ _ (fun h => hne g hg h.symm)]
        exact h3
      · show alookup (aset σ.used_methods f.path _) g.path = _
        rw [alookup_aset_ne _ _ _ _ (fun h => hne g hg h.symm)]
        exact h4

/-- Re-running pass 1 over the state left by a full no-wildcard analysis
restores exactly the pass-1 state: every per-file entry is overwritten with
the same state-independent value, and the key order is already established. -/
theorem pass1_after_analyze (fs : List Path) (fuel : Nat) (pd : Path)
    (files : List PyFile) (hnw : noWildcard files)
    (hnodup : (files.map PyFile.path).Nodup) (st : AnalyzerState) :
    files.foldl (fun s f => analyzeExportsAndImports fs fuel pd f.path f.nodes1 s)
        (analyzeProject fs fuel pd files st)
      = files.foldl (fun s f => analyzeExportsAndImports fs fuel pd f.path f.nodes1 s)
          st := by
  have hW1nodup : ∀ {α : Type} (g : FileEntries → α),
      ((w1of fs fuel pd files g).map Prod.fst).Nodup := by
    intro α g
    rw [w1of_keys]
    exact hnodup
  have hW2keys : ∀ {α β : Type} (g : UsageEntries → α) (g' : FileEntries → β),
      (w2of fs fuel pd files g).map Prod.fst
        = (w1of fs fuel pd files g').map Prod.fst := by
    intro α β g g'
    rw [w1of_keys, w2of_keys]
  have hW2nodup : ∀ {α : Type} (g : UsageEntries → α),
      ((w2of fs fuel pd files g).map Prod.fst).Nodup := by
    intro α g
    rw [w2of_keys]
    exact hnodup
  have hlook : ∀ f ∈ files,
      alookup (files.foldl
        (fun s f => analyzeExportsAndImports fs fuel pd f.path f.nodes1 s)
        st).defined_classes f.path = some (pass1Entries fs fuel pd f).dc ∧
      alookup (files.foldl
        (fun s f => analyzeExportsAndImports fs fuel pd f.path f.nodes1 s)
        st).used_functions f.path = some (pass1Entries fs fuel pd f).uf ∧
      alookup (files.foldl
        (fun s f => analyzeExportsAndImports fs fuel pd f.path f.nodes1 s)
        st).used_classes f.path = some (pass1Entries fs fuel pd f).uc ∧
      alookup (files.foldl
        (fun s f => analyzeExportsAndImports fs fuel pd f.path f.nodes1 s)
        st).used_methods f.path = some (pass1Entries fs fuel pd f).um := by
    intro f hf
    rw [pass1_fold_asets fs fuel pd files hnw st]
    exact ⟨alookup_asets_of_mem_nodup _ (hW1nodup _) _ _
        (List.mem_map_of_mem _ hf) _,
      alookup_asets_of_mem_nodup _ (hW1nodup _) _ _
        (List.mem_map_of_mem _ hf) _,
      alookup_asets_of_mem_nodup _ (hW1nodup _) _ _
        (List.mem_map_of_mem _ hf) _,
      alookup_asets_of_mem_nodup _ (hW1nodup _) _ _
        (List.mem_map_of_mem _ hf) _⟩
  have hproj : analyzeProject fs fuel pd files st
      = files.foldl (fun s f => analyzeUsage f.path f.nodes2 s)
          (files.foldl
            (fun s f => analyzeExportsAndImports fs fuel pd f.path f.nodes1 s)
            st) := rfl
  rw [hproj, pass2_fold_asets fs fuel pd files hnodup _ hlook,
    pass1_fold_asets fs fuel pd files hnw st]
  rw [pass1_fold_asets fs fuel pd files hnw]
  simp only
  rw [asets_overwrite _ _ _ (hW2keys UsageEntries.uf FileEntries.uf)
      (hW2nodup UsageEntries.uf),
    asets_overwrite _ _ _ (hW2keys UsageEntries.uc FileEntries.uc)
      (hW2nodup UsageEntries.uc),
    asets_overwrite _ _ _ (hW2keys UsageEntries.um FileEntries.um)
      (hW2nodup UsageEntries.um)]
  rw [asets_overwrite _ _ _ rfl (hW1nodup FileEntries.fe),
    asets_overwrite _ _ _ rfl (hW1nodup FileEntries.fi),
    asets_overwrite _ _ _ rfl (hW1nodup FileEntries.df),
    asets_overwrite _ _ _ rfl (hW1nodup FileEntries.uf),
    asets_overwrite _ _ _ rfl (hW1nodup FileEntries.dc),
    asets_overwrite _ _ _ rfl (hW1nodup FileEntries.uc),
    asets_overwrite _ _ _ rfl (hW1nodup FileEntries.dm),
    asets_overwrite _ _ _ rfl (hW1nodup FileEntries.um)]

/-- Without wildcard imports, the whole two-pass analysis is idempotent at
the state level: re-running it over an unchanged, duplicate-free file set on
the accumulated analyzer state reproduces that state exactly. -/
theorem analyzeProject_idempotent (fs : List Path) (fuel : Nat) (pd : Path)
    (files : List PyFile) (hnw : noWildcard files)
    (hnodup : (files.map PyFile.path).Nodup) (st : AnalyzerState) :
    analyzeProject fs fuel pd files (analyzeProject fs fuel pd files st)
      = analyzeProject fs fuel pd files st := by
  show (files.foldl (fun s f => analyzeUsage f.path f.nodes2 s)
      (files.foldl (fun s f => analyzeExportsAndImports fs fuel pd f.path f.nodes1 s)
        (analyzeProject fs fuel pd files st)))
    = analyzeProject fs fuel pd files st
  rw [pass1_after_analyze fs fuel pd files hnw hnodup st]
  rfl

instance (n : PNode) : Decidable (noWildcardNode n) :=
  match n with
  | .importFrom _ _ aliases =>
    inferInstanceAs (Decidable (∀ al ∈ aliases, al.1 ≠ "*"))
  | .funcDef _ _ _ _ => isTrue trivial
  | .classDef _ _ => isTrue trivial
  | .imp _ => isTrue trivial
  | .other => isTrue trivial

instance (files : List PyFile) : Decidable (noWildcard files) :=
  inferInstanceAs (Decidable (∀ f ∈ files, ∀ n ∈ f.nodes1, noWildcardNode n))

/-- C9 (amended): the report is a pure, read-only function of the
accumulated analyzer state (in this embedding `getUnusedCodeReport` takes
the frozen state and touches nothing), and re-running the full two-pass
analysis over an unchanged, duplicate-free file set on the same analyzer
yields the identical report — indeed the identical state — provided the
project contains no wildcard import.  With a wildcard import whose source is
walked later, re-running on the accumulated state can change the report (see
the counterexample). -/
theorem rerun_analysis_same_report_no_wildcard (fs : List Path) (fuel : Nat)
    (pd : Path) (files : List PyFile) (st : AnalyzerState)
    (hnw : noWildcard files) (hnodup : (files.map PyFile.path).Nodup) :
    getUnusedCodeReport
        (analyzeProject fs fuel pd files (analyzeProject fs fuel pd files st))
      = getUnusedCodeReport (analyzeProject fs fuel pd files st) := by
  rw [analyzeProject_idempotent fs fuel pd files hnw hnodup st]

theorem rerun_analysis_same_report_no_wildcard_witness :
    getUnusedCodeReport
        (analyzeProject [["proj", "a.py"], ["proj", "b.py"]] 10 ["proj"]
          [⟨["proj", "a.py"], [PNode.funcDef "helper" none false (1, 0)], []⟩,
           ⟨["proj", "b.py"],
            [PNode.importFrom (some "a") 1 [("helper", none)]], []⟩]
          (analyzeProject [["proj", "a.py"], ["proj", "b.py"]] 10 ["proj"]
            [⟨["proj", "a.py"], [PNode.funcDef "helper" none false (1, 0)], []⟩,
             ⟨["proj", "b.py"],
              [PNode.importFrom (some "a") 1 [("helper", none)]], []⟩]
            initState))
      = getUnusedCodeReport
          (analyzeProject [["proj", "a.py"], ["proj", "b.py"]] 10 ["proj"]
            [⟨["proj", "a.py"], [PNode.funcDef "helper" none false (1, 0)], []⟩,
             ⟨["proj", "b.py"],
              [PNode.importFrom (some "a") 1 [("helper", none)]], []⟩]
            initState) :=
  rerun_analysis_same_report_no_wildcard [["proj", "a.py"], ["proj", "b.py"]]
    10 ["proj"]
    [⟨["proj", "a.py"], [PNode.funcDef "helper" none false (1, 0)], []⟩,
     ⟨["proj", "b.py"], [PNode.importFrom (some "a") 1 [("helper", none)]], []⟩]
    initState (by decide) (by decide)

end DeadCode
